import Mathlib

/-!
Shallow embedding of the LIM language front-end parser (src/parser.ts) and the
driver's parse-error gate (lim.ts).  The parser is a recursive-descent parser
over a token sequence with a mutable index, an accumulated error list, and two
kinds of thrown errors: recoverable `ParseError` values (token + message) and
plain fatal invariant-violation errors.  We model it as a state-passing monad
with an explicit fuel parameter for the (in TypeScript, unbounded) recursion;
theorems about termination are phrased as fuel-sufficiency results.
-/

namespace LIM

/-- Token kinds used by the parser.  The enum lives in token.ts, which is not
part of the provided sources; the constructor set is exactly the set of
`TK.*` members referenced by src/parser.ts. -/
inductive TokenKind where
  | FUNC | LET | IF | ELSE | WHILE
  | IDENT | NUMBER | STRING
  | LPAREN | RPAREN | LBRACE | RBRACE | COMMA | SEMICOLON
  | ASSIGN | PLUS_ASSIGN | MINUS_ASSIGN | STAR_ASSIGN | SLASH_ASSIGN
  | OR | AND | EQUAL | NOTEQ | LT | LTE | GT | GTE
  | PLUS | MINUS | STAR | SLASH
  | NOT | BANG
  | EOF
  deriving DecidableEq, Repr

/-- Decoded literal payload of a token (numbers idealized as integers; the
claims under verification only involve integral literals). -/
inductive Lit where
  | num (n : Int)
  | str (s : String)
  deriving DecidableEq, Repr

/-- Modelled from the spec: token.ts is not under src/.  Spec section 3 gives a
token as kind, lexeme, optional decoded literal, and a source position (kept
only for faithfulness; no claim reads it). -/
structure Token where
  kind : TokenKind
  lexeme : String
  literal : Option Lit
  pos : Nat
  deriving DecidableEq, Repr

/-- A recoverable parse error: offending token plus message
(class ParseError in parser.ts). -/
structure ParseError where
  token : Token
  message : String
  deriving DecidableEq, Repr

/-- Thrown errors: a recoverable `ParseError`, or a plain fatal `Error`
(internal invariant violation), which recovery must not catch. -/
inductive PErr where
  | parseErr (token : Token) (message : String)
  | fatal (message : String)
  deriving DecidableEq, Repr

/-- Parser state: the (immutable) token array, the current index `i`, and the
accumulated `errors` list, exactly the mutable fields of class Parser. -/
structure PState where
  tokens : List Token
  i : Nat
  errors : List ParseError
  deriving Repr

/-- Result of running a parser computation: a value with the final state, a
thrown error together with the state at the throw point (TypeScript exceptions
do not roll back mutations), or fuel exhaustion (an artifact of the fuel
embedding, never of the source). -/
inductive Res (α : Type) where
  | ok (a : α) (s : PState)
  | err (e : PErr) (s : PState)
  | fuelOut
  deriving Repr

/-- The parser monad: state passing plus exceptions plus fuel exhaustion. -/
def M (α : Type) : Type := PState → Res α

instance : Monad M where
  pure a := fun s => .ok a s
  bind x f := fun s =>
    match x s with
    | .ok a s' => f a s'
    | .err e s' => .err e s'
    | .fuelOut => .fuelOut

/-- Throw an error (TypeScript `throw`). -/
def throwM {α : Type} (e : PErr) : M α := fun s => .err e s

/-- Read the parser state. -/
def getS : M PState := fun s => .ok s s

/-- Replace the parser state. -/
def setS (s' : PState) : M Unit := fun _ => .ok () s'

/-- Unfolding lemma for bind on the parser monad. -/
theorem bind_eq {α β : Type} (x : M α) (f : α → M β) (s : PState) :
    (x >>= f) s =
      match x s with
      | .ok a s' => f a s'
      | .err e s' => .err e s'
      | .fuelOut => .fuelOut := rfl

/-- Unfolding lemma for pure on the parser monad. -/
theorem pure_eq {α : Type} (a : α) (s : PState) : (pure a : M α) s = .ok a s := rfl

/-- The current token, `this.tokens[this.i]`; a missing token is a fatal
invariant violation (plain Error, not ParseError). -/
def currentM : M Token := fun s =>
  match s.tokens[s.i]? with
  | some t => .ok t s
  | none => .err (.fatal "Parser invariant violated: missing EOF token") s

/-- The previous token, `this.tokens[this.i - 1]`; index -1 or out of range is
undefined in TypeScript, hence fatal. -/
def previousM : M Token := fun s =>
  if s.i = 0 then .err (.fatal "Parser invariant violated: previous() before start") s
  else
    match s.tokens[s.i - 1]? with
    | some t => .ok t s
    | none => .err (.fatal "Parser invariant violated: previous() before start") s

/-- One-token lookahead `this.tokens[this.i + 1]`, which may be undefined. -/
def peekM : M (Option Token) := fun s => .ok (s.tokens[s.i + 1]?) s

/-- Whether the current token is the end-of-input sentinel. -/
def isAtEndM : M Bool := do
  let t ← currentM
  pure (t.kind == .EOF)

/-- Advance: step the index unless at end, then return the previous token. -/
def advanceM : M Token := do
  let e ← isAtEndM
  if e then previousM
  else do
    let s ← getS
    setS { s with i := s.i + 1 }
    previousM

/-- Check whether the current token has the given kind; the end-of-input
sentinel never matches any kind. -/
def checkM (k : TokenKind) : M Bool := do
  let e ← isAtEndM
  if e then pure false
  else do
    let t ← currentM
    pure (t.kind == k)

/-- Match: if the current token has one of the given kinds, consume it and
return true. -/
def matchM : List TokenKind → M Bool
  | [] => pure false
  | k :: ks => do
    let c ← checkM k
    if c then do
      let _ ← advanceM
      pure true
    else matchM ks

/-- Consume a token of the given kind or throw a ParseError carrying the
current (offending) token and the message. -/
def consumeM (k : TokenKind) (msg : String) : M Token := do
  let c ← checkM k
  if c then advanceM
  else do
    let t ← currentM
    throwM (.parseErr t msg)

/-- Record a parse error in the accumulated list (`this.errors.push(e)`). -/
def pushErrM (e : ParseError) : M Unit := do
  let s ← getS
  setS { s with errors := s.errors ++ [e] }

/-- Binary operator tags of the AST (ast.ts is not under src/; the tag set is
exactly the set of strings parser.ts casts to BinaryOp). -/
inductive BinaryOp where
  | OR | AND | EQUAL | NOTEQ | LT | LTE | GT | GTE | PLUS | MINUS | STAR | SLASH
  deriving DecidableEq, Repr

/-- Unary operator tags: parser.ts produces only MINUS and NOT. -/
inductive UnaryOp where
  | MINUS | NOT
  deriving DecidableEq, Repr

/-- Assignment operator tags produced by assignOpFromToken. -/
inductive AssignOp where
  | ASSIGN | PLUS_ASSIGN | MINUS_ASSIGN | STAR_ASSIGN | SLASH_ASSIGN
  deriving DecidableEq, Repr

/-- Expression nodes, one constructor per kind tag built by parser.ts
(Num, Str, Ident, Unary, Binary, Group, Call). -/
inductive Expr where
  | num (value : Int)
  | str (value : String)
  | ident (name : String)
  | unary (op : UnaryOp) (rhs : Expr)
  | binary (op : BinaryOp) (lhs : Expr) (rhs : Expr)
  | group (e : Expr)
  | call (callee : Expr) (args : List Expr)
  deriving Repr

/-- Statement nodes, one constructor per kind tag built by parser.ts
(Let, Fn, If, While, Block, Assign, ExprStmt). -/
inductive Stmt where
  | Let (name : String) (init : Option Expr)
  | Fn (name : String) (params : List String) (body : List Stmt)
  | If (cond : Expr) (thenS : Stmt) (otherwise : Option Stmt)
  | While (cond : Expr) (body : Stmt)
  | Block (stmts : List Stmt)
  | Assign (name : String) (op : AssignOp) (value : Expr)
  | ExprStmt (e : Expr)
  deriving Repr

/-- Value of a Num node: `Number(t.literal ?? t.lexeme)`, with numbers
idealized as integers and string-to-number coercion as decimal parsing. -/
def tokenNumValue (t : Token) : Int :=
  match t.literal with
  | some (.num n) => n
  | some (.str s) => (s.toInt?).getD 0
  | none => (t.lexeme.toInt?).getD 0

/-- Value of a Str node: `String(t.literal ?? t.lexeme)`. -/
def tokenStrValue (t : Token) : String :=
  match t.literal with
  | some (.str s) => s
  | some (.num n) => toString n
  | none => t.lexeme

/-- Printable name of a token kind.  The TK enum's string values live in
token.ts (not under src/); the constructor names stand in for them.  Only
diagnostic messages read this. -/
def kindName : TokenKind → String
  | .FUNC => "FUNC" | .LET => "LET" | .IF => "IF" | .ELSE => "ELSE" | .WHILE => "WHILE"
  | .IDENT => "IDENT" | .NUMBER => "NUMBER" | .STRING => "STRING"
  | .LPAREN => "LPAREN" | .RPAREN => "RPAREN" | .LBRACE => "LBRACE" | .RBRACE => "RBRACE"
  | .COMMA => "COMMA" | .SEMICOLON => "SEMICOLON"
  | .ASSIGN => "ASSIGN" | .PLUS_ASSIGN => "PLUS_ASSIGN" | .MINUS_ASSIGN => "MINUS_ASSIGN"
  | .STAR_ASSIGN => "STAR_ASSIGN" | .SLASH_ASSIGN => "SLASH_ASSIGN"
  | .OR => "OR" | .AND => "AND" | .EQUAL => "EQUAL" | .NOTEQ => "NOTEQ"
  | .LT => "LT" | .LTE => "LTE" | .GT => "GT" | .GTE => "GTE"
  | .PLUS => "PLUS" | .MINUS => "MINUS" | .STAR => "STAR" | .SLASH => "SLASH"
  | .NOT => "NOT" | .BANG => "BANG" | .EOF => "EOF"

/-- Lookahead test of exprOrAssignStmt: the token one past the current one is
an assignment-class operator (peekIsAssignOp in parser.ts). -/
def peekIsAssignOpM : M Bool := do
  let nx ← peekM
  match nx with
  | none => pure false
  | some t =>
    pure (t.kind == .ASSIGN || t.kind == .PLUS_ASSIGN || t.kind == .MINUS_ASSIGN
      || t.kind == .STAR_ASSIGN || t.kind == .SLASH_ASSIGN)

/-- Map an assignment token to its AssignOp tag, throwing a ParseError on any
other kind (assignOpFromToken in parser.ts). -/
def assignOpFromTokenM (tok : Token) : M AssignOp :=
  match tok.kind with
  | .ASSIGN => pure .ASSIGN
  | .PLUS_ASSIGN => pure .PLUS_ASSIGN
  | .MINUS_ASSIGN => pure .MINUS_ASSIGN
  | .STAR_ASSIGN => pure .STAR_ASSIGN
  | .SLASH_ASSIGN => pure .SLASH_ASSIGN
  | k => throwM (.parseErr tok ("Expected assignment operator, got \x27" ++ kindName k ++ "\x27."))

/-- Panic-mode skip loop of synchronize: stop at end of input, just after a
semicolon, or when the current token opens a statement (let, func, if, while);
otherwise discard the current token and continue. -/
def syncLoop : Nat → M Unit
  | 0 => fun _ => .fuelOut
  | f + 1 => do
    let e ← isAtEndM
    if e then pure ()
    else do
      let p ← previousM
      if p.kind == .SEMICOLON then pure ()
      else do
        let c ← currentM
        match c.kind with
        | .LET => pure ()
        | .FUNC => pure ()
        | .IF => pure ()
        | .WHILE => pure ()
        | _ => do
          let _ ← advanceM
          syncLoop f

/-- Panic-mode recovery: discard the offending token, then skip to a likely
statement boundary (synchronize in parser.ts). -/
def synchronizeM (f : Nat) : M Unit := do
  let _ ← advanceM
  syncLoop f

/-- Parameter list of fnDecl: a do-while over comma-separated identifiers. -/
def paramsLoop : Nat → M (List String)
  | 0 => fun _ => .fuelOut
  | f + 1 => do
    let p ← consumeM .IDENT "Expected parameter name."
    let c ← matchM [.COMMA]
    if c then do
      let rest ← paramsLoop f
      pure (p.lexeme :: rest)
    else pure [p.lexeme]

mutual

/-- Try body of declaration: dispatch on func, let, or a statement. -/
def declCore : Nat → M Stmt
  | 0 => fun _ => .fuelOut
  | f + 1 => do
    let mf ← matchM [.FUNC]
    if mf then fnDecl f
    else do
      let ml ← matchM [.LET]
      if ml then letDecl f
      else statement f

/-- A declaration with panic-mode recovery: a recoverable ParseError is
recorded, the parser synchronizes, and null is returned; any other thrown
error is rethrown. -/
def declaration : Nat → M (Option Stmt)
  | 0 => fun _ => .fuelOut
  | f + 1 => fun s =>
    match declCore f s with
    | .ok st s1 => .ok (some st) s1
    | .err (.parseErr t m) s1 =>
      (do
        pushErrM ⟨t, m⟩
        synchronizeM f
        pure none) s1
    | .err (.fatal m) s1 => .err (.fatal m) s1
    | .fuelOut => .fuelOut

/-- Statement dispatch: if, while, block, or expression/assignment. -/
def statement : Nat → M Stmt
  | 0 => fun _ => .fuelOut
  | f + 1 => do
    let mi ← matchM [.IF]
    if mi then ifStmt f
    else do
      let mw ← matchM [.WHILE]
      if mw then whileStmt f
      else do
        let mb ← matchM [.LBRACE]
        if mb then blockStmtAlreadyOpened f
        else exprOrAssignStmt f

/-- Let declaration: identifier, optional initializer, semicolon. -/
def letDecl : Nat → M Stmt
  | 0 => fun _ => .fuelOut
  | f + 1 => do
    let nameTok ← consumeM .IDENT "Expected identifier after \x27let\x27."
    let ma ← matchM [.ASSIGN]
    let ini ← if ma then do
      let e ← expression f
      pure (some e)
    else pure (none : Option Expr)
    let _ ← consumeM .SEMICOLON "Expected \x27;\x27 after let declaration."
    pure (Stmt.Let nameTok.lexeme ini)

/-- Function declaration: name, parenthesized parameters, braced body. -/
def fnDecl : Nat → M Stmt
  | 0 => fun _ => .fuelOut
  | f + 1 => do
    let nameTok ← consumeM .IDENT "Expected function name after \x27func\x27."
    let _ ← consumeM .LPAREN "Expected \x27(\x27 after function name."
    let r ← checkM .RPAREN
    let params ← if r then pure ([] : List String) else paramsLoop f
    let _ ← consumeM .RPAREN "Expected \x27)\x27 after parameters."
    let _ ← consumeM .LBRACE "Expected \x27\x7b\x27 before function body."
    let body ← blockStmtsAlreadyOpened f
    pure (Stmt.Fn nameTok.lexeme params body)

/-- If statement: parenthesized condition, then branch, optional else. -/
def ifStmt : Nat → M Stmt
  | 0 => fun _ => .fuelOut
  | f + 1 => do
    let _ ← consumeM .LPAREN "Expected \x27(\x27 after \x27if\x27."
    let cond ← expression f
    let _ ← consumeM .RPAREN "Expected \x27)\x27 after condition."
    let thenS ← statement f
    let me ← matchM [.ELSE]
    let otherwise ← if me then do
      let e ← statement f
      pure (some e)
    else pure (none : Option Stmt)
    pure (Stmt.If cond thenS otherwise)

/-- While statement: parenthesized condition and a body statement. -/
def whileStmt : Nat → M Stmt
  | 0 => fun _ => .fuelOut
  | f + 1 => do
    let _ ← consumeM .LPAREN "Expected \x27(\x27 after \x27while\x27."
    let cond ← expression f
    let _ ← consumeM .RPAREN "Expected \x27)\x27 after condition."
    let body ← statement f
    pure (Stmt.While cond body)

/-- Block statement wrapper around the raw statement list. -/
def blockStmtAlreadyOpened : Nat → M Stmt
  | 0 => fun _ => .fuelOut
  | f + 1 => do
    let stmts ← blockStmtsAlreadyOpened f
    pure (Stmt.Block stmts)

/-- Statement list of a block: declarations until a closing brace or end of
input, then the mandatory closing brace. -/
def blockStmtsAlreadyOpened : Nat → M (List Stmt)
  | 0 => fun _ => .fuelOut
  | f + 1 => do
    let r ← checkM .RBRACE
    let e ← isAtEndM
    if !r && !e then do
      let s? ← declaration f
      let rest ← blockStmtsAlreadyOpened f
      match s? with
      | some st => pure (st :: rest)
      | none => pure rest
    else do
      let _ ← consumeM .RBRACE "Expected \x27\x7d\x27 after block."
      pure []

/-- Expression statement or assignment, decided by one token of lookahead:
an identifier followed by an assignment-class token starts an assignment. -/
def exprOrAssignStmt : Nat → M Stmt
  | 0 => fun _ => .fuelOut
  | f + 1 => do
    let c ← checkM .IDENT
    let p ← peekIsAssignOpM
    if c && p then do
      let nameTok ← advanceM
      let opTok ← advanceM
      let op ← assignOpFromTokenM opTok
      let value ← expression f
      let _ ← consumeM .SEMICOLON "Expected \x27;\x27 after assignment."
      pure (Stmt.Assign nameTok.lexeme op value)
    else do
      let e ← expression f
      let _ ← consumeM .SEMICOLON "Expected \x27;\x27 after expression."
      pure (Stmt.ExprStmt e)

/-- Entry point of the expression precedence ladder. -/
def expression : Nat → M Expr
  | 0 => fun _ => .fuelOut
  | f + 1 => logicOr f

/-- Tier or: logicAnd followed by a left fold over `or`. -/
def logicOr : Nat → M Expr
  | 0 => fun _ => .fuelOut
  | f + 1 => do
    let e ← logicAnd f
    logicOrLoop f e

/-- Left-folding loop of the or tier. -/
def logicOrLoop : Nat → Expr → M Expr
  | 0, _ => fun _ => .fuelOut
  | f + 1, acc => do
    let m ← matchM [.OR]
    if m then do
      let rhs ← logicAnd f
      logicOrLoop f (Expr.binary .OR acc rhs)
    else pure acc

/-- Tier and: equality followed by a left fold over `and`. -/
def logicAnd : Nat → M Expr
  | 0 => fun _ => .fuelOut
  | f + 1 => do
    let e ← equality f
    logicAndLoop f e

/-- Left-folding loop of the and tier. -/
def logicAndLoop : Nat → Expr → M Expr
  | 0, _ => fun _ => .fuelOut
  | f + 1, acc => do
    let m ← matchM [.AND]
    if m then do
      let rhs ← equality f
      logicAndLoop f (Expr.binary .AND acc rhs)
    else pure acc

/-- Tier equality: comparison followed by a left fold over == and !=. -/
def equality : Nat → M Expr
  | 0 => fun _ => .fuelOut
  | f + 1 => do
    let e ← comparison f
    equalityLoop f e

/-- Left-folding loop of the equality tier. -/
def equalityLoop : Nat → Expr → M Expr
  | 0, _ => fun _ => .fuelOut
  | f + 1, acc => do
    let m ← matchM [.EQUAL, .NOTEQ]
    if m then do
      let opTok ← previousM
      let rhs ← comparison f
      let op := if opTok.kind == .EQUAL then BinaryOp.EQUAL else BinaryOp.NOTEQ
      equalityLoop f (Expr.binary op acc rhs)
    else pure acc

/-- Tier comparison: term followed by a left fold over < <= > >=. -/
def comparison : Nat → M Expr
  | 0 => fun _ => .fuelOut
  | f + 1 => do
    let e ← term f
    comparisonLoop f e

/-- Left-folding loop of the comparison tier. -/
def comparisonLoop : Nat → Expr → M Expr
  | 0, _ => fun _ => .fuelOut
  | f + 1, acc => do
    let m ← matchM [.LT, .LTE, .GT, .GTE]
    if m then do
      let opTok ← previousM
      let rhs ← term f
      let op := if opTok.kind == .LT then BinaryOp.LT
        else if opTok.kind == .LTE then BinaryOp.LTE
        else if opTok.kind == .GT then BinaryOp.GT
        else BinaryOp.GTE
      comparisonLoop f (Expr.binary op acc rhs)
    else pure acc

/-- Tier term: factor followed by a left fold over + and -. -/
def term : Nat → M Expr
  | 0 => fun _ => .fuelOut
  | f + 1 => do
    let e ← factor f
    termLoop f e

/-- Left-folding loop of the term tier. -/
def termLoop : Nat → Expr → M Expr
  | 0, _ => fun _ => .fuelOut
  | f + 1, acc => do
    let m ← matchM [.PLUS, .MINUS]
    if m then do
      let opTok ← previousM
      let rhs ← factor f
      let op := if opTok.kind == .PLUS then BinaryOp.PLUS else BinaryOp.MINUS
      termLoop f (Expr.binary op acc rhs)
    else pure acc

/-- Tier factor: unary followed by a left fold over * and /. -/
def factor : Nat → M Expr
  | 0 => fun _ => .fuelOut
  | f + 1 => do
    let e ← unary f
    factorLoop f e

/-- Left-folding loop of the factor tier. -/
def factorLoop : Nat → Expr → M Expr
  | 0, _ => fun _ => .fuelOut
  | f + 1, acc => do
    let m ← matchM [.STAR, .SLASH]
    if m then do
      let opTok ← previousM
      let rhs ← unary f
      let op := if opTok.kind == .STAR then BinaryOp.STAR else BinaryOp.SLASH
      factorLoop f (Expr.binary op acc rhs)
    else pure acc

/-- Unary tier: not, -, or ! applied by direct right recursion, else call. -/
def unary : Nat → M Expr
  | 0 => fun _ => .fuelOut
  | f + 1 => do
    let m ← matchM [.NOT, .MINUS, .BANG]
    if m then do
      let opTok ← previousM
      let rhs ← unary f
      let op := if opTok.kind == .MINUS then UnaryOp.MINUS else UnaryOp.NOT
      pure (Expr.unary op rhs)
    else call f

/-- Call tier: a primary followed by a loop of argument lists. -/
def call : Nat → M Expr
  | 0 => fun _ => .fuelOut
  | f + 1 => do
    let e ← primary f
    callLoop f e

/-- Left-associative call chaining loop. -/
def callLoop : Nat → Expr → M Expr
  | 0, _ => fun _ => .fuelOut
  | f + 1, acc => do
    let m ← matchM [.LPAREN]
    if m then do
      let r ← checkM .RPAREN
      let args ← if r then pure ([] : List Expr) else argsLoop f
      let _ ← consumeM .RPAREN "Expected \x27)\x27 after arguments."
      callLoop f (Expr.call acc args)
    else pure acc

/-- Comma-separated call arguments, a do-while loop. -/
def argsLoop : Nat → M (List Expr)
  | 0 => fun _ => .fuelOut
  | f + 1 => do
    let e ← expression f
    let c ← matchM [.COMMA]
    if c then do
      let rest ← argsLoop f
      pure (e :: rest)
    else pure [e]

/-- Primary expressions: number, string, identifier, or a parenthesized
group; anything else throws "Expected expression." at the current token. -/
def primary : Nat → M Expr
  | 0 => fun _ => .fuelOut
  | f + 1 => do
    let mn ← matchM [.NUMBER]
    if mn then do
      let t ← previousM
      pure (Expr.num (tokenNumValue t))
    else do
      let ms ← matchM [.STRING]
      if ms then do
        let t ← previousM
        pure (Expr.str (tokenStrValue t))
      else do
        let mi ← matchM [.IDENT]
        if mi then do
          let t ← previousM
          pure (Expr.ident t.lexeme)
        else do
          let mp ← matchM [.LPAREN]
          if mp then do
            let e ← expression f
            let _ ← consumeM .RPAREN "Expected \x27)\x27 after expression."
            pure (Expr.group e)
          else do
            let t ← currentM
            throwM (.parseErr t "Expected expression.")

end

/-- Top-level parse loop: declarations until end of input; null results
(recovered failures) contribute no statement. -/
def parseProgram : Nat → M (List Stmt)
  | 0 => fun _ => .fuelOut
  | f + 1 => do
    let e ← isAtEndM
    if e then pure []
    else do
      let s? ← declaration f
      let rest ← parseProgram f
      match s? with
      | some st => pure (st :: rest)
      | none => pure rest

/-- Run the parser from a fresh state on a token list, as the driver does. -/
def runParse (fuel : Nat) (tokens : List Token) : Res (List Stmt) :=
  parseProgram fuel { tokens := tokens, i := 0, errors := [] }

/-- Value component of a parse result, if it returned normally. -/
def Res.val? {α : Type} : Res α → Option α
  | .ok a _ => some a
  | _ => none

/-- Thrown error of a parse result, if any. -/
def Res.thrown? {α : Type} : Res α → Option PErr
  | .err e _ => some e
  | _ => none

/-- Final state of a parse result (present for normal returns and throws;
TypeScript exceptions do not roll back mutations). -/
def Res.state? {α : Type} : Res α → Option PState
  | .ok _ s => some s
  | .err _ s => some s
  | .fuelOut => none

/-- Map a function over the value of a result. -/
def Res.map {α β : Type} (g : α → β) : Res α → Res β
  | .ok a s => .ok (g a) s
  | .err e s => .err e s
  | .fuelOut => .fuelOut

/-- One diagnostic line of the driver (lim.ts): the template string printed
for each recorded parse error. -/
def reportLine (e : ParseError) : String :=
  "[Code Pattern Error] " ++ e.message ++ " at word type " ++ kindName e.token.kind
    ++ ", word " ++ e.token.lexeme

/-- Outcome of the driver after parsing (lim.ts): either it prints one line
per recorded error and exits with status 1, never touching the runtime, or it
hands the program to Runtime.run. -/
inductive DriverOutcome where
  | exitWithErrors (lines : List String) (exitCode : Nat)
  | interpreted (ast : List Stmt)
  deriving Repr

/-- The driver's parse-error gate (lim.ts lines 33-38 and 62-63): a non-empty
(that is, truthy length) error list reports and exits 1; otherwise the AST is
run. -/
def driverAfterParse (errors : List ParseError) (ast : List Stmt) : DriverOutcome :=
  if errors.length ≠ 0 then .exitWithErrors (errors.map reportLine) 1
  else .interpreted ast

/-- Reference denotation of the arithmetic expression fragment, following the
spec's words: standard precedence-respecting integer arithmetic, with grouping
transparent.  Division is exact or undefined; nothing outside the plus, minus,
times, divide fragment denotes. -/
def denoteArith : Expr → Option Int
  | .num n => some n
  | .group e => denoteArith e
  | .binary .PLUS l r => do
    let a ← denoteArith l
    let b ← denoteArith r
    pure (a + b)
  | .binary .MINUS l r => do
    let a ← denoteArith l
    let b ← denoteArith r
    pure (a - b)
  | .binary .STAR l r => do
    let a ← denoteArith l
    let b ← denoteArith r
    pure (a * b)
  | .binary .SLASH l r => do
    let a ← denoteArith l
    let b ← denoteArith r
    if b ≠ 0 ∧ b ∣ a then pure (a / b) else none
  | _ => none

/-- Number token with its decoded literal, as the lexer produces it. -/
def numTok (n : Int) : Token := ⟨.NUMBER, toString n, some (.num n), 0⟩

/-- Identifier token. -/
def identTok (name : String) : Token := ⟨.IDENT, name, none, 0⟩

/-- Operator or punctuation token (its lexeme is never read by the parser). -/
def symTok (k : TokenKind) : Token := ⟨k, "", none, 0⟩

/-- End-of-input sentinel token. -/
def eofTok : Token := ⟨.EOF, "", none, 0⟩

/-- All ordered pairs of operator token kinds drawn from one binary tier of
the precedence ladder (or, and, equality, comparison, term, factor). -/
def sameTierPairs : List (TokenKind × TokenKind) :=
  [(.OR, .OR), (.AND, .AND),
   (.EQUAL, .EQUAL), (.EQUAL, .NOTEQ), (.NOTEQ, .EQUAL), (.NOTEQ, .NOTEQ),
   (.LT, .LT), (.LT, .LTE), (.LT, .GT), (.LT, .GTE),
   (.LTE, .LT), (.LTE, .LTE), (.LTE, .GT), (.LTE, .GTE),
   (.GT, .LT), (.GT, .LTE), (.GT, .GT), (.GT, .GTE),
   (.GTE, .LT), (.GTE, .LTE), (.GTE, .GT), (.GTE, .GTE),
   (.PLUS, .PLUS), (.PLUS, .MINUS), (.MINUS, .PLUS), (.MINUS, .MINUS),
   (.STAR, .STAR), (.STAR, .SLASH), (.SLASH, .STAR), (.SLASH, .SLASH)]

/-- Expected AST operator for a binary operator token kind (a table used only
to state expected trees; non-operator kinds are never queried). -/
def binOpOfKind : TokenKind → BinaryOp
  | .OR => .OR
  | .AND => .AND
  | .EQUAL => .EQUAL
  | .NOTEQ => .NOTEQ
  | .LT => .LT
  | .LTE => .LTE
  | .GT => .GT
  | .GTE => .GTE
  | .PLUS => .PLUS
  | .MINUS => .MINUS
  | .STAR => .STAR
  | .SLASH => .SLASH
  | _ => .OR

/-- Token sequence of a program with two independent syntax faults (each a
`let` followed by a number instead of an identifier) separated by the valid
assignment statement `x = 1;`. -/
def twoFaultTokens : List Token :=
  [symTok .LET, numTok 1, symTok .SEMICOLON,
   identTok "x", symTok .ASSIGN, numTok 1, symTok .SEMICOLON,
   symTok .LET, numTok 2, symTok .SEMICOLON, eofTok]

/-- The five assignment-class token kinds of the lookahead rule. -/
def assignClass (k : TokenKind) : Bool :=
  k == .ASSIGN || k == .PLUS_ASSIGN || k == .MINUS_ASSIGN
    || k == .STAR_ASSIGN || k == .SLASH_ASSIGN

/-- Lookahead decision as a pure function of the token one past the current
position. -/
def peekAssign : Option Token → Bool
  | some t => assignClass t.kind
  | none => false

/-- Where panic-mode recovery may stop: at the end-of-input sentinel, just
after a semicolon, or with a statement keyword (let, func, if, while) as the
current token. -/
def syncStop (s : PState) : Prop :=
  (∃ t, s.tokens[s.i]? = some t ∧ t.kind = .EOF) ∨
  (s.i ≠ 0 ∧ ∃ t, s.tokens[s.i - 1]? = some t ∧ t.kind = .SEMICOLON) ∨
  (∃ t, s.tokens[s.i]? = some t ∧
    (t.kind = .LET ∨ t.kind = .FUNC ∨ t.kind = .IF ∨ t.kind = .WHILE))

/-- An if-then-else of parser computations applied to a state distributes. -/
theorem ite_app {α : Type} (c : Prop) [Decidable c] (x y : M α) (s : PState) :
    (if c then x else y) s = if c then x s else y s := by
  split <;> rfl

theorem checkM_some {s : PState} {t : Token} (h : s.tokens[s.i]? = some t)
    (k : TokenKind) :
    checkM k s = .ok (if t.kind = .EOF then false else t.kind == k) s := by
  by_cases he : t.kind = .EOF <;>
    simp [checkM, isAtEndM, currentM, bind_eq, pure_eq, h, he, ite_app]

theorem currentM_none {s : PState} (h : s.tokens[s.i]? = none) :
    currentM s = .err (.fatal "Parser invariant violated: missing EOF token") s := by
  simp [currentM, h]

theorem advanceM_ne_eof {s : PState} {t : Token} (h : s.tokens[s.i]? = some t)
    (hne : t.kind ≠ .EOF) :
    advanceM s = .ok t { s with i := s.i + 1 } := by
  have hp : previousM { s with i := s.i + 1 } = .ok t { s with i := s.i + 1 } := by
    simp [previousM, h]
  simp [advanceM, isAtEndM, currentM, bind_eq, pure_eq, h, hne, ite_app, getS, setS, hp]

theorem advanceM_eof {s : PState} {t : Token} (h : s.tokens[s.i]? = some t)
    (heq : t.kind = .EOF) :
    advanceM s = previousM s := by
  simp [advanceM, isAtEndM, currentM, bind_eq, pure_eq, h, heq, ite_app]

theorem matchM_found {s : PState} {t : Token} {ks : List TokenKind}
    (h : s.tokens[s.i]? = some t) (hne : t.kind ≠ .EOF) (hmem : t.kind ∈ ks) :
    matchM ks s = .ok true { s with i := s.i + 1 } := by
  induction ks with
  | nil => cases hmem
  | cons k ks ih =>
    rw [List.mem_cons] at hmem
    by_cases hk : t.kind = k
    · simp [matchM, bind_eq, checkM_some h, hne, hk, ite_app,
        advanceM_ne_eof h hne, pure_eq]
      intro hke
      exact absurd (hk.trans hke) hne
    · have hmem' : t.kind ∈ ks := hmem.resolve_left hk
      simp [matchM, bind_eq, checkM_some h, hne, hk, ite_app, ih hmem']

theorem matchM_not_found {s : PState} {t : Token} {ks : List TokenKind}
    (h : s.tokens[s.i]? = some t) (hcond : t.kind = .EOF ∨ t.kind ∉ ks) :
    matchM ks s = .ok false s := by
  induction ks with
  | nil => rfl
  | cons k ks ih =>
    have hk : t.kind = .EOF ∨ t.kind ≠ k := by
      rcases hcond with he | hm
      · exact .inl he
      · exact .inr fun hk => hm (hk ▸ List.mem_cons_self k ks)
    have htail : matchM ks s = .ok false s := by
      refine ih ?_
      rcases hcond with he | hm
      · exact .inl he
      · exact .inr fun hx => hm (List.mem_cons_of_mem k hx)
    by_cases he : t.kind = .EOF
    · simp [matchM, bind_eq, checkM_some h, he, ite_app, htail]
    · have hne : t.kind ≠ k := hk.resolve_left he
      simp [matchM, bind_eq, checkM_some h, he, hne, ite_app, htail]

theorem consumeM_ok {s : PState} {t : Token} {k : TokenKind} {msg : String}
    (h : s.tokens[s.i]? = some t) (hne : t.kind ≠ .EOF) (hk : t.kind = k) :
    consumeM k msg s = .ok t { s with i := s.i + 1 } := by
  simp [consumeM, bind_eq, checkM_some h, hne, hk, ite_app, advanceM_ne_eof h hne]
  intro hke
  exact absurd (hk.trans hke) hne

theorem consumeM_throw {s : PState} {t : Token} {k : TokenKind} {msg : String}
    (h : s.tokens[s.i]? = some t) (hcond : t.kind = .EOF ∨ t.kind ≠ k) :
    consumeM k msg s = .err (.parseErr t msg) s := by
  by_cases he : t.kind = .EOF
  · simp [consumeM, bind_eq, checkM_some h, he, ite_app, currentM, h, throwM]
  · have hne : t.kind ≠ k := hcond.resolve_left he
    simp [consumeM, bind_eq, checkM_some h, he, hne, ite_app, currentM, h, throwM]

theorem peekIsAssignOpM_eq (s : PState) :
    peekIsAssignOpM s = .ok (peekAssign s.tokens[s.i + 1]?) s := by
  cases h : s.tokens[s.i + 1]? <;>
    simp [peekIsAssignOpM, peekM, bind_eq, pure_eq, h, peekAssign, assignClass]

/-- Token sequence of the statement `x += 1;`, whose identifier is followed by
an assignment-class token. -/
def lookaheadTokens : List Token :=
  [identTok "x", symTok .PLUS_ASSIGN, numTok 1, symTok .SEMICOLON, eofTok]

/-- Token sequence of a call `f(1` whose argument list is closed by a
semicolon instead of the required parenthesis. -/
def callFaultTokens : List Token :=
  [identTok "f", symTok .LPAREN, numTok 1, symTok .SEMICOLON, eofTok]

/-- Token sequence of a parenthesized group `(1` that reaches end of input
before its closing parenthesis. -/
def groupFaultTokens : List Token :=
  [symTok .LPAREN, numTok 1, eofTok]

theorem previousM_ok {s : PState} {p : Token} (hne0 : s.i ≠ 0)
    (hp : s.tokens[s.i - 1]? = some p) : previousM s = .ok p s := by
  simp [previousM, hne0, hp]

theorem previousM_err_zero {s : PState} (h0 : s.i = 0) :
    previousM s = .err (.fatal "Parser invariant violated: previous() before start") s := by
  simp [previousM, h0]

theorem previousM_err_none {s : PState} (hne0 : s.i ≠ 0)
    (hp : s.tokens[s.i - 1]? = none) :
    previousM s = .err (.fatal "Parser invariant violated: previous() before start") s := by
  simp [previousM, hne0, hp]

theorem syncLoop_post : ∀ (f : Nat) (s s2 : PState), syncLoop f s = .ok () s2 →
    s2.tokens = s.tokens ∧ s2.errors = s.errors ∧ s.i ≤ s2.i ∧ syncStop s2 := by
  intro f
  induction f with
  | zero =>
    intro s s2 h
    exact absurd h (by simp [syncLoop])
  | succ f ih =>
    intro s s2 h
    cases hcur : s.tokens[s.i]? with
    | none =>
      rw [syncLoop] at h
      simp [bind_eq, isAtEndM, currentM, hcur] at h
    | some t =>
      by_cases he : t.kind = .EOF
      · rw [syncLoop] at h
        simp [bind_eq, isAtEndM, currentM, hcur, he, ite_app, pure_eq] at h
        rcases h with ⟨rfl⟩
        exact ⟨rfl, rfl, le_refl _, Or.inl ⟨t, hcur, he⟩⟩
      · have hadv := advanceM_ne_eof hcur he
        have heb : (t.kind == TokenKind.EOF) = false := by simp [he]
        rw [syncLoop] at h
        simp only [bind_eq, isAtEndM, currentM, hcur, pure_eq, ite_app, heb,
          Bool.false_eq_true, if_false] at h
        by_cases h0 : s.i = 0
        · rw [previousM_err_zero h0] at h
          simp at h
        · cases hp : s.tokens[s.i - 1]? with
          | none =>
            rw [previousM_err_none h0 hp] at h
            simp at h
          | some p =>
            rw [previousM_ok h0 hp] at h
            by_cases hsemi : p.kind = .SEMICOLON
            · simp only [hsemi, beq_self_eq_true, if_true] at h
              rcases h with ⟨rfl⟩
              exact ⟨rfl, rfl, le_refl _,
                Or.inr (Or.inl ⟨h0, p, hp, hsemi⟩)⟩
            · have hsb : (p.kind == TokenKind.SEMICOLON) = false := by simp [hsemi]
              simp only [hsb, Bool.false_eq_true, if_false, hcur] at h
              revert h
              cases hk34 : t.kind <;> intro h <;>
                first
                  | exact absurd hk34 he
                  | (simp only [pure_eq] at h
                     rcases h with ⟨rfl⟩
                     exact ⟨rfl, rfl, le_refl _,
                       Or.inr (Or.inr ⟨t, hcur, by simp [hk34]⟩)⟩)
                  | (simp only [bind_eq, hadv] at h
                     obtain ⟨e1, e2, e3, e4⟩ := ih { s with i := s.i + 1 } s2 h
                     dsimp only at e1 e2 e3
                     exact ⟨e1, e2, by omega, e4⟩)
theorem advanceM_ok_state {s s' : PState} {t : Token} (h : advanceM s = .ok t s') :
    s'.tokens = s.tokens ∧ s'.errors = s.errors ∧ s.i ≤ s'.i ∧ s'.i ≤ s.i + 1 := by
  cases hcur : s.tokens[s.i]? with
  | none =>
    rw [show advanceM s = .err (.fatal "Parser invariant violated: missing EOF token") s by
      simp [advanceM, isAtEndM, currentM, bind_eq, hcur, ite_app]] at h
    cases h
  | some u =>
    by_cases he : u.kind = .EOF
    · rw [advanceM_eof hcur he] at h
      by_cases h0 : s.i = 0
      · rw [previousM_err_zero h0] at h
        cases h
      · cases hp : s.tokens[s.i - 1]? with
        | none =>
          rw [previousM_err_none h0 hp] at h
          cases h
        | some p =>
          rw [previousM_ok h0 hp] at h
          rcases h with ⟨rfl⟩
          exact ⟨rfl, rfl, le_refl _, Nat.le_succ _⟩
    · rw [advanceM_ne_eof hcur he] at h
      rcases h with ⟨rfl⟩
      exact ⟨rfl, rfl, Nat.le_succ _, le_refl _⟩

theorem synchronizeM_post {f : Nat} {s s2 : PState} (h : synchronizeM f s = .ok () s2) :
    s2.tokens = s.tokens ∧ s2.errors = s.errors ∧ s.i ≤ s2.i ∧ syncStop s2 := by
  simp only [synchronizeM, bind_eq] at h
  cases hr : advanceM s with
  | ok t s' =>
    rw [hr] at h
    obtain ⟨a1, a2, a3, _⟩ := advanceM_ok_state hr
    obtain ⟨e1, e2, e3, e4⟩ := syncLoop_post f s' s2 h
    exact ⟨e1.trans a1, e2.trans a2, a3.trans e3, e4⟩
  | err e s' =>
    rw [hr] at h
    cases h
  | fuelOut =>
    rw [hr] at h
    cases h

theorem isAtEndM_false {s : PState} {t : Token} (h : s.tokens[s.i]? = some t)
    (hne : t.kind ≠ .EOF) : isAtEndM s = .ok false s := by
  simp [isAtEndM, currentM, bind_eq, pure_eq, h, hne]

/-- Token sequence of the single faulty declaration `let 1 ;`. -/
def letFaultTokens : List Token :=
  [symTok .LET, numTok 1, symTok .SEMICOLON, eofTok]


theorem checkM_none {s : PState} (h : s.tokens[s.i]? = none) (k : TokenKind) :
    checkM k s = .err (.fatal "Parser invariant violated: missing EOF token") s := by
  simp [checkM, isAtEndM, currentM, bind_eq, h, ite_app]

theorem matchM_cases (ks : List TokenKind) (s : PState) :
    (matchM ks s = .ok true { s with i := s.i + 1 } ∧ s.i < s.tokens.length) ∨
      matchM ks s = .ok false s ∨
      ∃ e, matchM ks s = .err e s := by
  cases hcur : s.tokens[s.i]? with
  | none =>
    cases ks with
    | nil => exact .inr (.inl rfl)
    | cons k ks =>
      refine .inr (.inr ⟨.fatal "Parser invariant violated: missing EOF token", ?_⟩)
      simp [matchM, bind_eq, checkM_none hcur]
  | some t =>
    induction ks with
    | nil => exact .inr (.inl rfl)
    | cons k ks ih =>
      have hlen : s.i < s.tokens.length := (List.getElem?_eq_some_iff.mp hcur).1
      by_cases he : t.kind = .EOF
      · rcases ih with ⟨h1, _⟩ | h1 | ⟨e, h1⟩ <;>
          [exact .inl ⟨by simp [matchM, bind_eq, checkM_some hcur, he, ite_app, h1], hlen⟩;
           exact .inr (.inl (by simp [matchM, bind_eq, checkM_some hcur, he, ite_app, h1]));
           exact .inr (.inr ⟨e, by simp [matchM, bind_eq, checkM_some hcur, he, ite_app, h1]⟩)]
      · by_cases hk : t.kind = k
        · exact .inl ⟨matchM_found hcur he (by simp [hk]), hlen⟩
        · rcases ih with ⟨h1, _⟩ | h1 | ⟨e, h1⟩ <;>
            [exact .inl ⟨by simp [matchM, bind_eq, checkM_some hcur, he, hk, ite_app, h1], hlen⟩;
             exact .inr (.inl (by simp [matchM, bind_eq, checkM_some hcur, he, hk, ite_app, h1]));
             exact .inr (.inr ⟨e, by simp [matchM, bind_eq, checkM_some hcur, he, hk, ite_app, h1]⟩)]

theorem consumeM_cases (k : TokenKind) (msg : String) (s : PState) :
    (∃ t, consumeM k msg s = .ok t { s with i := s.i + 1 } ∧ s.i < s.tokens.length) ∨
      ∃ e, consumeM k msg s = .err e s := by
  cases hcur : s.tokens[s.i]? with
  | none =>
    refine .inr ⟨.fatal "Parser invariant violated: missing EOF token", ?_⟩
    simp [consumeM, bind_eq, checkM_none hcur]
  | some t =>
    by_cases he : t.kind = .EOF
    · exact .inr ⟨.parseErr t msg, consumeM_throw hcur (.inl he)⟩
    · by_cases hk : t.kind = k
      · exact .inl ⟨t, consumeM_ok hcur he hk, (List.getElem?_eq_some_iff.mp hcur).1⟩
      · exact .inr ⟨.parseErr t msg, consumeM_throw hcur (.inr hk)⟩

theorem advanceM_cases (s : PState) :
    (∃ t, advanceM s = .ok t s) ∨ (∃ t, advanceM s = .ok t { s with i := s.i + 1 }) ∨
      (∃ e, advanceM s = .err e s) ∨
      ∃ e, advanceM s = .err e { s with i := s.i + 1 } := by
  cases hcur : s.tokens[s.i]? with
  | none =>
    refine .inr (.inr (.inl ⟨.fatal "Parser invariant violated: missing EOF token", ?_⟩))
    simp [advanceM, isAtEndM, currentM, bind_eq, hcur, ite_app]
  | some t =>
    by_cases he : t.kind = .EOF
    · rw [advanceM_eof hcur he]
      by_cases h0 : s.i = 0
      · exact .inr (.inr (.inl ⟨_, previousM_err_zero h0⟩))
      · cases hp : s.tokens[s.i - 1]? with
        | none => exact .inr (.inr (.inl ⟨_, previousM_err_none h0 hp⟩))
        | some p => exact .inl ⟨p, previousM_ok h0 hp⟩
    · exact .inr (.inl ⟨t, advanceM_ne_eof hcur he⟩)

theorem assignOpFromTokenM_cases (tok : Token) (s : PState) :
    (∃ op, assignOpFromTokenM tok s = .ok op s) ∨
      ∃ e, assignOpFromTokenM tok s = .err e s := by
  obtain ⟨k, lex, lit, pos⟩ := tok
  cases k <;>
    first
      | exact .inl ⟨_, rfl⟩
      | exact .inr ⟨_, rfl⟩


theorem pushErrM_eq (e : ParseError) (s : PState) :
    pushErrM e s = .ok () { s with errors := s.errors ++ [e] } := rfl

theorem syncLoop_mono : ∀ (f : Nat) (s : PState) (r : Res Unit), syncLoop f s = r →
    ∀ s', r.state? = some s' → s'.tokens = s.tokens ∧ s.i ≤ s'.i := by
  intro f
  induction f with
  | zero =>
    intro s r h s' hs
    subst h
    cases hs
  | succ f ih =>
    intro s r h s' hs
    cases hcur : s.tokens[s.i]? with
    | none =>
      rw [syncLoop] at h
      simp [bind_eq, isAtEndM, currentM, hcur] at h
      subst h
      cases hs
      exact ⟨rfl, le_refl _⟩
    | some t =>
      by_cases he : t.kind = .EOF
      · rw [syncLoop] at h
        simp [bind_eq, isAtEndM, currentM, hcur, he, ite_app, pure_eq] at h
        subst h
        cases hs
        exact ⟨rfl, le_refl _⟩
      · have hadv := advanceM_ne_eof hcur he
        have heb : (t.kind == TokenKind.EOF) = false := by simp [he]
        rw [syncLoop] at h
        simp only [bind_eq, isAtEndM, currentM, hcur, pure_eq, ite_app, heb,
          Bool.false_eq_true, if_false] at h
        by_cases h0 : s.i = 0
        · rw [previousM_err_zero h0] at h
          simp only at h
          subst h
          cases hs
          exact ⟨rfl, le_refl _⟩
        · cases hp : s.tokens[s.i - 1]? with
          | none =>
            rw [previousM_err_none h0 hp] at h
            simp only at h
            subst h
            cases hs
            exact ⟨rfl, le_refl _⟩
          | some p =>
            rw [previousM_ok h0 hp] at h
            by_cases hsemi : p.kind = .SEMICOLON
            · simp only [hsemi, beq_self_eq_true, if_true] at h
              subst h
              cases hs
              exact ⟨rfl, le_refl _⟩
            · have hsb : (p.kind == TokenKind.SEMICOLON) = false := by simp [hsemi]
              simp only [hsb, Bool.false_eq_true, if_false, hcur] at h
              revert h
              cases hk34 : t.kind <;> intro h <;>
                first
                  | exact absurd hk34 he
                  | (simp only [pure_eq] at h
                     subst h
                     cases hs
                     exact ⟨rfl, le_refl _⟩)
                  | (simp only [bind_eq, hadv] at h
                     obtain ⟨e1, e2⟩ := ih { s with i := s.i + 1 } r h s' hs
                     dsimp only at e1 e2
                     exact ⟨e1, by omega⟩)

theorem syncLoop_noFuel : ∀ (f : Nat) (s : PState),
    s.tokens.length - s.i < f → syncLoop f s ≠ .fuelOut := by
  intro f
  induction f with
  | zero =>
    intro s hb
    omega
  | succ f ih =>
    intro s hb
    cases hcur : s.tokens[s.i]? with
    | none =>
      rw [syncLoop]
      simp [bind_eq, isAtEndM, currentM, hcur]
    | some t =>
      have hlen : s.i < s.tokens.length := by
        have := List.getElem?_eq_some_iff.mp hcur
        exact this.1
      by_cases he : t.kind = .EOF
      · rw [syncLoop]
        simp [bind_eq, isAtEndM, currentM, hcur, he, ite_app, pure_eq]
      · have hadv := advanceM_ne_eof hcur he
        have heb : (t.kind == TokenKind.EOF) = false := by simp [he]
        rw [syncLoop]
        simp only [bind_eq, isAtEndM, currentM, hcur, pure_eq, ite_app, heb,
          Bool.false_eq_true, if_false]
        by_cases h0 : s.i = 0
        · rw [previousM_err_zero h0]
          simp
        · cases hp : s.tokens[s.i - 1]? with
          | none =>
            rw [previousM_err_none h0 hp]
            simp
          | some p =>
            rw [previousM_ok h0 hp]
            by_cases hsemi : p.kind = .SEMICOLON
            · simp [hsemi]
            · have hsb : (p.kind == TokenKind.SEMICOLON) = false := by simp [hsemi]
              simp only [hsb, Bool.false_eq_true, if_false, hcur]
              cases hk34 : t.kind <;>
                first
                  | exact absurd hk34 he
                  | (simp only [bind_eq, hadv]
                     exact ih { s with i := s.i + 1 }
                       (show s.tokens.length - (s.i + 1) < f by omega))
                  | simp [pure_eq]

theorem synchronizeM_mono {f : Nat} {s : PState} {r : Res Unit}
    (h : synchronizeM f s = r) :
    ∀ s', r.state? = some s' → s'.tokens = s.tokens ∧ s.i ≤ s'.i := by
  intro s' hs
  simp only [synchronizeM, bind_eq] at h
  rcases advanceM_cases s with ⟨t, ha⟩ | ⟨t, ha⟩ | ⟨e, ha⟩ | ⟨e, ha⟩ <;> rw [ha] at h
  · exact syncLoop_mono f s r h s' hs
  · obtain ⟨e1, e2⟩ := syncLoop_mono f { s with i := s.i + 1 } r h s' hs
    dsimp only at e1 e2
    exact ⟨e1, by omega⟩
  · subst h
    cases hs
    exact ⟨rfl, le_refl _⟩
  · subst h
    cases hs
    exact ⟨rfl, Nat.le_succ s.i⟩

theorem synchronizeM_noFuel {f : Nat} {s : PState}
    (hb : s.tokens.length - s.i < f) : synchronizeM f s ≠ .fuelOut := by
  simp only [synchronizeM, bind_eq]
  rcases advanceM_cases s with ⟨t, ha⟩ | ⟨t, ha⟩ | ⟨e, ha⟩ | ⟨e, ha⟩ <;> rw [ha]
  · exact syncLoop_noFuel f s hb
  · exact syncLoop_noFuel f { s with i := s.i + 1 }
      (show s.tokens.length - (s.i + 1) < f by omega)
  · simp
  · simp


/-- Joint specification of a fueled parser computation started in state s:
thrown errors and normal returns only move the index forward over the same
token array (normal returns by at least delta), and fuel at least
16 * (remaining tokens) + c rules out fuel exhaustion. -/
abbrev PSpec {α : Type} (s : PState) (δ c f : Nat) (r : Res α) : Prop :=
  (∀ e s', r = Res.err e s' → s'.tokens = s.tokens ∧ s.i ≤ s'.i) ∧
  (∀ a s', r = Res.ok a s' → s'.tokens = s.tokens ∧ s.i + δ ≤ s'.i) ∧
  (16 * (s.tokens.length - s.i) + c ≤ f → r ≠ Res.fuelOut)

theorem pspec_err {α : Type} {s s' : PState} (e : PErr) (δ c f : Nat)
    (ht : s'.tokens = s.tokens) (hi : s.i ≤ s'.i) :
    PSpec s δ c f (Res.err e s' : Res α) := by
  refine ⟨?_, ?_, ?_⟩
  · intro e0 s0 h
    cases h
    exact ⟨ht, hi⟩
  · intro a0 s0 h
    cases h
  · intro _
    simp

theorem pspec_ok {α : Type} {s s' : PState} (a : α) (δ c f : Nat)
    (ht : s'.tokens = s.tokens) (hi : s.i + δ ≤ s'.i) :
    PSpec s δ c f (Res.ok a s') := by
  refine ⟨?_, ?_, ?_⟩
  · intro e0 s0 h
    cases h
  · intro a0 s0 h
    cases h
    exact ⟨ht, hi⟩
  · intro _
    simp

theorem pspec_fuelOut {α : Type} {s : PState} {δ c f : Nat}
    (h : ¬ 16 * (s.tokens.length - s.i) + c ≤ f) :
    PSpec s δ c f (Res.fuelOut : Res α) := by
  refine ⟨?_, ?_, ?_⟩
  · intro e0 s0 hh
    cases hh
  · intro a0 s0 hh
    cases hh
  · intro hb
    exact absurd hb h


theorem previousM_bump {s : PState} (hlen : s.i < s.tokens.length) :
    previousM { s with i := s.i + 1 } = .ok (s.tokens.get ⟨s.i, hlen⟩) { s with i := s.i + 1 } := by
  have h1 : ({ s with i := s.i + 1 } : PState).i ≠ 0 := Nat.succ_ne_zero _
  refine previousM_ok h1 ?_
  show s.tokens[s.i + 1 - 1]? = some _
  simp [List.getElem?_eq_getElem, hlen]

theorem isAtEndM_some {s : PState} {t : Token} (h : s.tokens[s.i]? = some t) :
    isAtEndM s = .ok (t.kind == .EOF) s := by
  simp [isAtEndM, currentM, bind_eq, pure_eq, h]

theorem pspec_tail {α : Type} {s s1 : PState} {δ1 c1 δ c F : Nat} {r : Res α}
    (h : PSpec s1 δ1 c1 F r)
    (ht : s1.tokens = s.tokens)
    (hle : s.i ≤ s1.i)
    (hδ : s.i + δ ≤ s1.i + δ1)
    (hfuel : 16 * (s.tokens.length - s.i) + c ≤ F + 1 →
      16 * (s.tokens.length - s1.i) + c1 ≤ F) :
    PSpec s δ c (F + 1) r := by
  obtain ⟨hE, hO, hF⟩ := h
  refine ⟨?_, ?_, ?_⟩
  · intro e s' hr
    obtain ⟨a1, a2⟩ := hE e s' hr
    exact ⟨a1.trans ht, hle.trans a2⟩
  · intro a s' hr
    obtain ⟨a1, a2⟩ := hO a s' hr
    exact ⟨a1.trans ht, by omega⟩
  · intro hb
    refine hF ?_
    rw [ht]
    exact hfuel hb

theorem paramsLoop_spec : ∀ (f : Nat) (s : PState), PSpec s 1 2 f (paramsLoop f s) := by
  intro f
  induction f with
  | zero =>
    intro s
    exact pspec_fuelOut (by omega)
  | succ f ih =>
    intro s
    rw [paramsLoop]
    rcases consumeM_cases .IDENT "Expected parameter name." s with
      ⟨t1, hc, hlen⟩ | ⟨e1, hc⟩ <;>
      simp only [bind_eq, pure_eq, ite_app, if_true, if_false, eq_self_iff_true,
        Bool.false_eq_true, hc]
    · rcases matchM_cases [.COMMA] { s with i := s.i + 1 } with ⟨hm, hlen2⟩ | hm |
        ⟨e2, hm⟩ <;>
        simp only [bind_eq, pure_eq, ite_app, if_true, if_false, eq_self_iff_true,
          Bool.false_eq_true, hm]
      · dsimp only at hlen2
        obtain ⟨iE, iO, iF⟩ := ih { s with i := s.i + 1 + 1 }
        cases hp : paramsLoop f { s with i := s.i + 1 + 1 } with
        | ok a s3 =>
          simp only [hp, pure_eq]
          obtain ⟨m1, m2⟩ := iO a s3 hp
          dsimp only at m1 m2
          exact pspec_ok _ _ _ _ m1 (by omega)
        | err e3 s3 =>
          simp only [hp]
          obtain ⟨m1, m2⟩ := iE e3 s3 hp
          dsimp only at m1 m2
          exact pspec_err _ _ _ _ m1 (by omega)
        | fuelOut =>
          simp only [hp]
          exact pspec_fuelOut fun hb => absurd hp (iF (by dsimp only; omega))
      · exact pspec_ok _ _ _ _ rfl (Nat.le_refl _)
      · exact pspec_err _ _ _ _ rfl (Nat.le_succ _)
    · exact pspec_err _ _ _ _ rfl (le_refl _)


set_option maxHeartbeats 1000000 in
theorem parserFuelSpec : ∀ f : Nat,
    (∀ s, PSpec s 1 2 f (primary f s)) ∧
    (∀ acc s, PSpec s 0 2 f (callLoop f acc s)) ∧
    (∀ s, PSpec s 1 3 f (call f s)) ∧
    (∀ s, PSpec s 1 4 f (unary f s)) ∧
    (∀ acc s, PSpec s 0 4 f (factorLoop f acc s)) ∧
    (∀ s, PSpec s 1 5 f (factor f s)) ∧
    (∀ acc s, PSpec s 0 5 f (termLoop f acc s)) ∧
    (∀ s, PSpec s 1 6 f (term f s)) ∧
    (∀ acc s, PSpec s 0 6 f (comparisonLoop f acc s)) ∧
    (∀ s, PSpec s 1 7 f (comparison f s)) ∧
    (∀ acc s, PSpec s 0 7 f (equalityLoop f acc s)) ∧
    (∀ s, PSpec s 1 8 f (equality f s)) ∧
    (∀ acc s, PSpec s 0 8 f (logicAndLoop f acc s)) ∧
    (∀ s, PSpec s 1 9 f (logicAnd f s)) ∧
    (∀ acc s, PSpec s 0 9 f (logicOrLoop f acc s)) ∧
    (∀ s, PSpec s 1 10 f (logicOr f s)) ∧
    (∀ s, PSpec s 1 11 f (expression f s)) ∧
    (∀ s, PSpec s 1 12 f (argsLoop f s)) ∧
    (∀ s, PSpec s 1 13 f (exprOrAssignStmt f s)) ∧
    (∀ s, PSpec s 1 18 f (letDecl f s)) ∧
    (∀ s, PSpec s 1 18 f (fnDecl f s)) ∧
    (∀ s, PSpec s 1 18 f (ifStmt f s)) ∧
    (∀ s, PSpec s 1 18 f (whileStmt f s)) ∧
    (∀ s, PSpec s 1 17 f (blockStmtsAlreadyOpened f s)) ∧
    (∀ s, PSpec s 1 18 f (blockStmtAlreadyOpened f s)) ∧
    (∀ s, PSpec s 1 14 f (statement f s)) ∧
    (∀ s, PSpec s 1 15 f (declCore f s)) ∧
    (∀ s, PSpec s 0 16 f (declaration f s) ∧
      (∀ t, s.tokens[s.i]? = some t → t.kind ≠ .EOF →
        ∀ a s', declaration f s = .ok a s' → s.i + 1 ≤ s'.i)) ∧
    (∀ s, PSpec s 0 17 f (parseProgram f s)) := by
  intro f
  induction f with
  | zero =>
    refine ⟨fun s => pspec_fuelOut (by omega), fun acc s => pspec_fuelOut (by omega),
      fun s => pspec_fuelOut (by omega), fun s => pspec_fuelOut (by omega),
      fun acc s => pspec_fuelOut (by omega), fun s => pspec_fuelOut (by omega),
      fun acc s => pspec_fuelOut (by omega), fun s => pspec_fuelOut (by omega),
      fun acc s => pspec_fuelOut (by omega), fun s => pspec_fuelOut (by omega),
      fun acc s => pspec_fuelOut (by omega), fun s => pspec_fuelOut (by omega),
      fun acc s => pspec_fuelOut (by omega), fun s => pspec_fuelOut (by omega),
      fun acc s => pspec_fuelOut (by omega), fun s => pspec_fuelOut (by omega),
      fun s => pspec_fuelOut (by omega), fun s => pspec_fuelOut (by omega),
      fun s => pspec_fuelOut (by omega), fun s => pspec_fuelOut (by omega),
      fun s => pspec_fuelOut (by omega), fun s => pspec_fuelOut (by omega),
      fun s => pspec_fuelOut (by omega), fun s => pspec_fuelOut (by omega),
      fun s => pspec_fuelOut (by omega), fun s => pspec_fuelOut (by omega),
      fun s => pspec_fuelOut (by omega),
      fun s => ⟨pspec_fuelOut (by omega), fun t _ _ a s' h => by cases h⟩,
      fun s => pspec_fuelOut (by omega)⟩
  | succ f ih =>
    obtain ⟨ihPrim, ihCallLoop, ihCall, ihUnary, ihFacLoop, ihFac, ihTermLoop, ihTerm,
      ihCmpLoop, ihCmp, ihEqLoop, ihEq, ihAndLoop, ihAnd, ihOrLoop, ihOr, ihExpr,
      ihArgs, ihEOA, ihLet, ihFn, ihIf, ihWhile, ihBlockS, ihBlockW, ihStmt, ihCore,
      ihDecl, ihPP⟩ := ih
    have Hprimary : ∀ s, PSpec s 1 2 (f + 1) (primary (f + 1) s) := by
      intro s
      rw [primary]
      rcases matchM_cases [.NUMBER] s with ⟨hm, hlen⟩ | hm | ⟨e, hm⟩ <;>
        simp only [bind_eq, pure_eq, ite_app, if_true, if_false, eq_self_iff_true,
          Bool.false_eq_true, hm]
      · simp only [previousM_bump hlen, pure_eq]
        exact pspec_ok _ _ _ _ rfl (Nat.le_refl _)
      · rcases matchM_cases [.STRING] s with ⟨hm2, hlen⟩ | hm2 | ⟨e, hm2⟩ <;>
          simp only [bind_eq, pure_eq, ite_app, if_true, if_false, eq_self_iff_true,
            Bool.false_eq_true, hm2]
        · simp only [previousM_bump hlen, pure_eq]
          exact pspec_ok _ _ _ _ rfl (Nat.le_refl _)
        · rcases matchM_cases [.IDENT] s with ⟨hm3, hlen⟩ | hm3 | ⟨e, hm3⟩ <;>
            simp only [bind_eq, pure_eq, ite_app, if_true, if_false, eq_self_iff_true,
              Bool.false_eq_true, hm3]
          · simp only [previousM_bump hlen, pure_eq]
            exact pspec_ok _ _ _ _ rfl (Nat.le_refl _)
          · rcases matchM_cases [.LPAREN] s with ⟨hm4, hlen⟩ | hm4 | ⟨e, hm4⟩ <;>
              simp only [bind_eq, pure_eq, ite_app, if_true, if_false, eq_self_iff_true,
                Bool.false_eq_true, hm4]
            · obtain ⟨eE, eO, eF⟩ := ihExpr { s with i := s.i + 1 }
              cases hexp : expression f { s with i := s.i + 1 } with
              | ok v s4 =>
                simp only [hexp, bind_eq]
                obtain ⟨m1, m2⟩ := eO v s4 hexp
                dsimp only at m1 m2
                rcases consumeM_cases .RPAREN "Expected \x27)\x27 after expression." s4 with
                  ⟨t5, hc, hlen5⟩ | ⟨e5, hc⟩ <;> simp only [hc, pure_eq]
                · exact pspec_ok _ _ _ _ (by show s4.tokens = s.tokens; exact m1)
                    (by show s.i + 1 ≤ s4.i + 1; omega)
                · exact pspec_err _ _ _ _ m1 (by omega)
              | err eE5 s4 =>
                simp only [hexp]
                obtain ⟨m1, m2⟩ := eE eE5 s4 hexp
                dsimp only at m1 m2
                exact pspec_err _ _ _ _ m1 (by omega)
              | fuelOut =>
                simp only [hexp]
                refine pspec_fuelOut fun hb => ?_
                refine absurd hexp (eF ?_)
                dsimp only
                omega
            · cases hcur : s.tokens[s.i]? with
              | some t =>
                simp only [bind_eq, currentM, hcur, throwM]
                exact pspec_err _ _ _ _ rfl (by omega)
              | none =>
                simp only [bind_eq, currentM, hcur]
                exact pspec_err _ _ _ _ rfl (by omega)
            · exact pspec_err _ _ _ _ rfl (by omega)
          · exact pspec_err _ _ _ _ rfl (by omega)
        · exact pspec_err _ _ _ _ rfl (by omega)
      · exact pspec_err _ _ _ _ rfl (by omega)
    have HFactorLoop : ∀ acc s, PSpec s 0 4 (f + 1) (factorLoop (f + 1) acc s) := by
      intro acc s
      rw [factorLoop]
      rcases matchM_cases [.STAR, .SLASH] s with ⟨hm, hlen⟩ | hm | ⟨e, hm⟩ <;>
        simp only [bind_eq, pure_eq, ite_app, if_true, if_false, eq_self_iff_true,
          Bool.false_eq_true, hm]
      · simp only [previousM_bump hlen, bind_eq, pure_eq]
        obtain ⟨uE, uO, uF⟩ := ihUnary { s with i := s.i + 1 }
        cases hu : unary f { s with i := s.i + 1 } with
        | ok v s3 =>
          simp only [bind_eq, hu]
          obtain ⟨m1, m2⟩ := uO v s3 hu
          dsimp only at m1 m2
          refine pspec_tail (ihFacLoop _ s3) m1 (by omega) (by omega) (fun hb => by omega)
        | err e3 s3 =>
          simp only [bind_eq, hu]
          obtain ⟨m1, m2⟩ := uE e3 s3 hu
          dsimp only at m1 m2
          exact pspec_err _ _ _ _ m1 (by omega)
        | fuelOut =>
          simp only [bind_eq, hu]
          exact pspec_fuelOut fun hb => absurd hu (uF (by dsimp only; omega))
      · exact pspec_ok _ _ _ _ rfl (by omega)
      · exact pspec_err _ _ _ _ rfl (le_refl _)

    have HFactor : ∀ s, PSpec s 1 5 (f + 1) (factor (f + 1) s) := by
      intro s
      rw [factor]
      obtain ⟨uE, uO, uF⟩ := ihUnary s
      cases hu : unary f s with
      | ok v s2 =>
        simp only [bind_eq, hu]
        obtain ⟨m1, m2⟩ := uO v s2 hu
        refine pspec_tail (ihFacLoop _ s2) m1 (by omega) (by omega) (fun hb => ?_)
        have hlen2 : s2.tokens.length = s.tokens.length := by rw [m1]
        omega
      | err e2 s2 =>
        simp only [bind_eq, hu]
        obtain ⟨m1, m2⟩ := uE e2 s2 hu
        exact pspec_err _ _ _ _ m1 (by omega)
      | fuelOut =>
        simp only [bind_eq, hu]
        exact pspec_fuelOut fun hb => absurd hu (uF (by omega))

    have HTermLoop : ∀ acc s, PSpec s 0 5 (f + 1) (termLoop (f + 1) acc s) := by
      intro acc s
      rw [termLoop]
      rcases matchM_cases [.PLUS, .MINUS] s with ⟨hm, hlen⟩ | hm | ⟨e, hm⟩ <;>
        simp only [bind_eq, pure_eq, ite_app, if_true, if_false, eq_self_iff_true,
          Bool.false_eq_true, hm]
      · simp only [previousM_bump hlen, bind_eq, pure_eq]
        obtain ⟨uE, uO, uF⟩ := ihFac { s with i := s.i + 1 }
        cases hu : factor f { s with i := s.i + 1 } with
        | ok v s3 =>
          simp only [bind_eq, hu]
          obtain ⟨m1, m2⟩ := uO v s3 hu
          dsimp only at m1 m2
          refine pspec_tail (ihTermLoop _ s3) m1 (by omega) (by omega) (fun hb => by omega)
        | err e3 s3 =>
          simp only [bind_eq, hu]
          obtain ⟨m1, m2⟩ := uE e3 s3 hu
          dsimp only at m1 m2
          exact pspec_err _ _ _ _ m1 (by omega)
        | fuelOut =>
          simp only [bind_eq, hu]
          exact pspec_fuelOut fun hb => absurd hu (uF (by dsimp only; omega))
      · exact pspec_ok _ _ _ _ rfl (by omega)
      · exact pspec_err _ _ _ _ rfl (le_refl _)

    have HTerm : ∀ s, PSpec s 1 6 (f + 1) (term (f + 1) s) := by
      intro s
      rw [term]
      obtain ⟨uE, uO, uF⟩ := ihFac s
      cases hu : factor f s with
      | ok v s2 =>
        simp only [bind_eq, hu]
        obtain ⟨m1, m2⟩ := uO v s2 hu
        refine pspec_tail (ihTermLoop _ s2) m1 (by omega) (by omega) (fun hb => ?_)
        have hlen2 : s2.tokens.length = s.tokens.length := by rw [m1]
        omega
      | err e2 s2 =>
        simp only [bind_eq, hu]
        obtain ⟨m1, m2⟩ := uE e2 s2 hu
        exact pspec_err _ _ _ _ m1 (by omega)
      | fuelOut =>
        simp only [bind_eq, hu]
        exact pspec_fuelOut fun hb => absurd hu (uF (by omega))

    have HCmpLoop : ∀ acc s, PSpec s 0 6 (f + 1) (comparisonLoop (f + 1) acc s) := by
      intro acc s
      rw [comparisonLoop]
      rcases matchM_cases [.LT, .LTE, .GT, .GTE] s with ⟨hm, hlen⟩ | hm | ⟨e, hm⟩ <;>
        simp only [bind_eq, pure_eq, ite_app, if_true, if_false, eq_self_iff_true,
          Bool.false_eq_true, hm]
      · simp only [previousM_bump hlen, bind_eq, pure_eq]
        obtain ⟨uE, uO, uF⟩ := ihTerm { s with i := s.i + 1 }
        cases hu : term f { s with i := s.i + 1 } with
        | ok v s3 =>
          simp only [bind_eq, hu]
          obtain ⟨m1, m2⟩ := uO v s3 hu
          dsimp only at m1 m2
          refine pspec_tail (ihCmpLoop _ s3) m1 (by omega) (by omega) (fun hb => by omega)
        | err e3 s3 =>
          simp only [bind_eq, hu]
          obtain ⟨m1, m2⟩ := uE e3 s3 hu
          dsimp only at m1 m2
          exact pspec_err _ _ _ _ m1 (by omega)
        | fuelOut =>
          simp only [bind_eq, hu]
          exact pspec_fuelOut fun hb => absurd hu (uF (by dsimp only; omega))
      · exact pspec_ok _ _ _ _ rfl (by omega)
      · exact pspec_err _ _ _ _ rfl (le_refl _)

    have HCmp : ∀ s, PSpec s 1 7 (f + 1) (comparison (f + 1) s) := by
      intro s
      rw [comparison]
      obtain ⟨uE, uO, uF⟩ := ihTerm s
      cases hu : term f s with
      | ok v s2 =>
        simp only [bind_eq, hu]
        obtain ⟨m1, m2⟩ := uO v s2 hu
        refine pspec_tail (ihCmpLoop _ s2) m1 (by omega) (by omega) (fun hb => ?_)
        have hlen2 : s2.tokens.length = s.tokens.length := by rw [m1]
        omega
      | err e2 s2 =>
        simp only [bind_eq, hu]
        obtain ⟨m1, m2⟩ := uE e2 s2 hu
        exact pspec_err _ _ _ _ m1 (by omega)
      | fuelOut =>
        simp only [bind_eq, hu]
        exact pspec_fuelOut fun hb => absurd hu (uF (by omega))

    have HEqLoop : ∀ acc s, PSpec s 0 7 (f + 1) (equalityLoop (f + 1) acc s) := by
      intro acc s
      rw [equalityLoop]
      rcases matchM_cases [.EQUAL, .NOTEQ] s with ⟨hm, hlen⟩ | hm | ⟨e, hm⟩ <;>
        simp only [bind_eq, pure_eq, ite_app, if_true, if_false, eq_self_iff_true,
          Bool.false_eq_true, hm]
      · simp only [previousM_bump hlen, bind_eq, pure_eq]
        obtain ⟨uE, uO, uF⟩ := ihCmp { s with i := s.i + 1 }
        cases hu : comparison f { s with i := s.i + 1 } with
        | ok v s3 =>
          simp only [bind_eq, hu]
          obtain ⟨m1, m2⟩ := uO v s3 hu
          dsimp only at m1 m2
          refine pspec_tail (ihEqLoop _ s3) m1 (by omega) (by omega) (fun hb => by omega)
        | err e3 s3 =>
          simp only [bind_eq, hu]
          obtain ⟨m1, m2⟩ := uE e3 s3 hu
          dsimp only at m1 m2
          exact pspec_err _ _ _ _ m1 (by omega)
        | fuelOut =>
          simp only [bind_eq, hu]
          exact pspec_fuelOut fun hb => absurd hu (uF (by dsimp only; omega))
      · exact pspec_ok _ _ _ _ rfl (by omega)
      · exact pspec_err _ _ _ _ rfl (le_refl _)

    have HEq : ∀ s, PSpec s 1 8 (f + 1) (equality (f + 1) s) := by
      intro s
      rw [equality]
      obtain ⟨uE, uO, uF⟩ := ihCmp s
      cases hu : comparison f s with
      | ok v s2 =>
        simp only [bind_eq, hu]
        obtain ⟨m1, m2⟩ := uO v s2 hu
        refine pspec_tail (ihEqLoop _ s2) m1 (by omega) (by omega) (fun hb => ?_)
        have hlen2 : s2.tokens.length = s.tokens.length := by rw [m1]
        omega
      | err e2 s2 =>
        simp only [bind_eq, hu]
        obtain ⟨m1, m2⟩ := uE e2 s2 hu
        exact pspec_err _ _ _ _ m1 (by omega)
      | fuelOut =>
        simp only [bind_eq, hu]
        exact pspec_fuelOut fun hb => absurd hu (uF (by omega))

    have HAndLoop : ∀ acc s, PSpec s 0 8 (f + 1) (logicAndLoop (f + 1) acc s) := by
      intro acc s
      rw [logicAndLoop]
      rcases matchM_cases [.AND] s with ⟨hm, hlen⟩ | hm | ⟨e, hm⟩ <;>
        simp only [bind_eq, pure_eq, ite_app, if_true, if_false, eq_self_iff_true,
          Bool.false_eq_true, hm]
      · obtain ⟨uE, uO, uF⟩ := ihEq { s with i := s.i + 1 }
        cases hu : equality f { s with i := s.i + 1 } with
        | ok v s3 =>
          simp only [bind_eq, hu]
          obtain ⟨m1, m2⟩ := uO v s3 hu
          dsimp only at m1 m2
          refine pspec_tail (ihAndLoop _ s3) m1 (by omega) (by omega) (fun hb => by omega)
        | err e3 s3 =>
          simp only [bind_eq, hu]
          obtain ⟨m1, m2⟩ := uE e3 s3 hu
          dsimp only at m1 m2
          exact pspec_err _ _ _ _ m1 (by omega)
        | fuelOut =>
          simp only [bind_eq, hu]
          exact pspec_fuelOut fun hb => absurd hu (uF (by dsimp only; omega))
      · exact pspec_ok _ _ _ _ rfl (by omega)
      · exact pspec_err _ _ _ _ rfl (le_refl _)

    have HAnd : ∀ s, PSpec s 1 9 (f + 1) (logicAnd (f + 1) s) := by
      intro s
      rw [logicAnd]
      obtain ⟨uE, uO, uF⟩ := ihEq s
      cases hu : equality f s with
      | ok v s2 =>
        simp only [bind_eq, hu]
        obtain ⟨m1, m2⟩ := uO v s2 hu
        refine pspec_tail (ihAndLoop _ s2) m1 (by omega) (by omega) (fun hb => ?_)
        have hlen2 : s2.tokens.length = s.tokens.length := by rw [m1]
        omega
      | err e2 s2 =>
        simp only [bind_eq, hu]
        obtain ⟨m1, m2⟩ := uE e2 s2 hu
        exact pspec_err _ _ _ _ m1 (by omega)
      | fuelOut =>
        simp only [bind_eq, hu]
        exact pspec_fuelOut fun hb => absurd hu (uF (by omega))

    have HOrLoop : ∀ acc s, PSpec s 0 9 (f + 1) (logicOrLoop (f + 1) acc s) := by
      intro acc s
      rw [logicOrLoop]
      rcases matchM_cases [.OR] s with ⟨hm, hlen⟩ | hm | ⟨e, hm⟩ <;>
        simp only [bind_eq, pure_eq, ite_app, if_true, if_false, eq_self_iff_true,
          Bool.false_eq_true, hm]
      · obtain ⟨uE, uO, uF⟩ := ihAnd { s with i := s.i + 1 }
        cases hu : logicAnd f { s with i := s.i + 1 } with
        | ok v s3 =>
          simp only [bind_eq, hu]
          obtain ⟨m1, m2⟩ := uO v s3 hu
          dsimp only at m1 m2
          refine pspec_tail (ihOrLoop _ s3) m1 (by omega) (by omega) (fun hb => by omega)
        | err e3 s3 =>
          simp only [bind_eq, hu]
          obtain ⟨m1, m2⟩ := uE e3 s3 hu
          dsimp only at m1 m2
          exact pspec_err _ _ _ _ m1 (by omega)
        | fuelOut =>
          simp only [bind_eq, hu]
          exact pspec_fuelOut fun hb => absurd hu (uF (by dsimp only; omega))
      · exact pspec_ok _ _ _ _ rfl (by omega)
      · exact pspec_err _ _ _ _ rfl (le_refl _)

    have HOr : ∀ s, PSpec s 1 10 (f + 1) (logicOr (f + 1) s) := by
      intro s
      rw [logicOr]
      obtain ⟨uE, uO, uF⟩ := ihAnd s
      cases hu : logicAnd f s with
      | ok v s2 =>
        simp only [bind_eq, hu]
        obtain ⟨m1, m2⟩ := uO v s2 hu
        refine pspec_tail (ihOrLoop _ s2) m1 (by omega) (by omega) (fun hb => ?_)
        have hlen2 : s2.tokens.length = s.tokens.length := by rw [m1]
        omega
      | err e2 s2 =>
        simp only [bind_eq, hu]
        obtain ⟨m1, m2⟩ := uE e2 s2 hu
        exact pspec_err _ _ _ _ m1 (by omega)
      | fuelOut =>
        simp only [bind_eq, hu]
        exact pspec_fuelOut fun hb => absurd hu (uF (by omega))

    have Hexpression : ∀ s, PSpec s 1 11 (f + 1) (expression (f + 1) s) := by
      intro s
      rw [expression]
      exact pspec_tail (ihOr s) rfl (le_refl _) (by omega) (fun hb => by omega)

    have Hunary : ∀ s, PSpec s 1 4 (f + 1) (unary (f + 1) s) := by
      intro s
      rw [unary]
      rcases matchM_cases [.NOT, .MINUS, .BANG] s with ⟨hm, hlen⟩ | hm | ⟨e, hm⟩ <;>
        simp only [bind_eq, pure_eq, ite_app, if_true, if_false, eq_self_iff_true,
          Bool.false_eq_true, hm]
      · simp only [previousM_bump hlen, bind_eq, pure_eq]
        obtain ⟨uE, uO, uF⟩ := ihUnary { s with i := s.i + 1 }
        cases hu : unary f { s with i := s.i + 1 } with
        | ok v s3 =>
          simp only [bind_eq, hu, pure_eq]
          obtain ⟨m1, m2⟩ := uO v s3 hu
          dsimp only at m1 m2
          exact pspec_ok _ _ _ _ m1 (by omega)
        | err e3 s3 =>
          simp only [bind_eq, hu]
          obtain ⟨m1, m2⟩ := uE e3 s3 hu
          dsimp only at m1 m2
          exact pspec_err _ _ _ _ m1 (by omega)
        | fuelOut =>
          simp only [bind_eq, hu]
          exact pspec_fuelOut fun hb => absurd hu (uF (by dsimp only; omega))
      · exact pspec_tail (ihCall s) rfl (le_refl _) (by omega) (fun hb => by omega)
      · exact pspec_err _ _ _ _ rfl (le_refl _)

    have Hcall : ∀ s, PSpec s 1 3 (f + 1) (call (f + 1) s) := by
      intro s
      rw [call]
      obtain ⟨pE, pO, pF⟩ := ihPrim s
      cases hp : primary f s with
      | ok v s2 =>
        simp only [bind_eq, hp]
        obtain ⟨m1, m2⟩ := pO v s2 hp
        refine pspec_tail (ihCallLoop _ s2) m1 (by omega) (by omega) (fun hb => ?_)
        have hlen2 : s2.tokens.length = s.tokens.length := by rw [m1]
        omega
      | err e2 s2 =>
        simp only [bind_eq, hp]
        obtain ⟨m1, m2⟩ := pE e2 s2 hp
        exact pspec_err _ _ _ _ m1 (by omega)
      | fuelOut =>
        simp only [bind_eq, hp]
        exact pspec_fuelOut fun hb => absurd hp (pF (by omega))
    have HargsLoop : ∀ s, PSpec s 1 12 (f + 1) (argsLoop (f + 1) s) := by
      intro s
      rw [argsLoop]
      obtain ⟨eE, eO, eF⟩ := ihExpr s
      cases he : expression f s with
      | ok v s2 =>
        simp only [bind_eq, he]
        obtain ⟨m1, m2⟩ := eO v s2 he
        have hlen2 : s2.tokens.length = s.tokens.length := by rw [m1]
        rcases matchM_cases [.COMMA] s2 with ⟨hm, hlen⟩ | hm | ⟨e2, hm⟩ <;>
          simp only [bind_eq, pure_eq, ite_app, if_true, if_false, eq_self_iff_true,
          Bool.false_eq_true, hm]
        · obtain ⟨iE, iO, iF⟩ := ihArgs { s2 with i := s2.i + 1 }
          cases hl : argsLoop f { s2 with i := s2.i + 1 } with
          | ok a s3 =>
            simp only [bind_eq, hl, pure_eq]
            obtain ⟨n1, n2⟩ := iO a s3 hl
            dsimp only at n1 n2
            exact pspec_ok _ _ _ _ (n1.trans m1) (by omega)
          | err e3 s3 =>
            simp only [bind_eq, hl]
            obtain ⟨n1, n2⟩ := iE e3 s3 hl
            dsimp only at n1 n2
            exact pspec_err _ _ _ _ (n1.trans m1) (by omega)
          | fuelOut =>
            simp only [bind_eq, hl]
            exact pspec_fuelOut fun hb => absurd hl (iF (by dsimp only; omega))
        · exact pspec_ok _ _ _ _ m1 (by omega)
        · exact pspec_err _ _ _ _ m1 (by omega)
      | err e2 s2 =>
        simp only [bind_eq, he]
        obtain ⟨m1, m2⟩ := eE e2 s2 he
        exact pspec_err _ _ _ _ m1 (by omega)
      | fuelOut =>
        simp only [bind_eq, he]
        exact pspec_fuelOut fun hb => absurd he (eF (by omega))

    have HcallLoop : ∀ acc s, PSpec s 0 2 (f + 1) (callLoop (f + 1) acc s) := by
      intro acc s
      rw [callLoop]
      rcases matchM_cases [.LPAREN] s with ⟨hm, hlen⟩ | hm | ⟨e, hm⟩ <;>
        simp only [bind_eq, pure_eq, ite_app, if_true, if_false, eq_self_iff_true,
          Bool.false_eq_true, hm]
      · cases hcur2 : s.tokens[s.i + 1]? with
        | none =>
          have hch := checkM_none
            (show ({ s with i := s.i + 1 } : PState).tokens[({ s with i := s.i + 1 } : PState).i]? = none from hcur2)
            TokenKind.RPAREN
          simp only [bind_eq, hch]
          exact pspec_err _ _ _ _ rfl (Nat.le_succ _)
        | some t2 =>
          have hch := checkM_some
            (show ({ s with i := s.i + 1 } : PState).tokens[({ s with i := s.i + 1 } : PState).i]? = some t2 from hcur2)
            TokenKind.RPAREN
          simp only [bind_eq, hch]
          cases hval : (if t2.kind = TokenKind.EOF then false else t2.kind == TokenKind.RPAREN) with
          | true =>
            simp only [hval, if_true, eq_self_iff_true, pure_eq, bind_eq, ite_app]
            rcases consumeM_cases .RPAREN "Expected \x27)\x27 after arguments."
                { s with i := s.i + 1 } with ⟨t3, hc, hlen3⟩ | ⟨e3, hc⟩ <;>
              simp only [bind_eq, hc]
            · refine pspec_tail (ihCallLoop _ { s with i := s.i + 1 + 1 }) rfl
                (show s.i ≤ s.i + 1 + 1 by omega)
                (show s.i + 0 ≤ s.i + 1 + 1 + 0 by omega)
                (fun hb => show 16 * (s.tokens.length - (s.i + 1 + 1)) + 2 ≤ f by omega)
            · exact pspec_err _ _ _ _ rfl (Nat.le_succ _)
          | false =>
            simp only [hval, Bool.false_eq_true, if_false, bind_eq, ite_app]
            obtain ⟨iE, iO, iF⟩ := ihArgs { s with i := s.i + 1 }
            cases hl : argsLoop f { s with i := s.i + 1 } with
            | ok a s4 =>
              simp only [bind_eq, hl]
              obtain ⟨n1, n2⟩ := iO a s4 hl
              dsimp only at n1 n2
              have hlen4 : s4.tokens.length = s.tokens.length := by rw [n1]
              rcases consumeM_cases .RPAREN "Expected \x27)\x27 after arguments." s4 with
                ⟨t5, hc, hlen5⟩ | ⟨e5, hc⟩ <;> simp only [bind_eq, hc]
              · refine pspec_tail (ihCallLoop _ { s4 with i := s4.i + 1 })
                  (show ({ s4 with i := s4.i + 1 } : PState).tokens = s.tokens from n1)
                  (by dsimp only; omega) (by dsimp only; omega)
                  (fun hb => by dsimp only; omega)
              · exact pspec_err _ _ _ _ n1 (by omega)
            | err e4 s4 =>
              simp only [bind_eq, hl]
              obtain ⟨n1, n2⟩ := iE e4 s4 hl
              dsimp only at n1 n2
              exact pspec_err _ _ _ _ n1 (by omega)
            | fuelOut =>
              simp only [bind_eq, hl]
              exact pspec_fuelOut fun hb => absurd hl (iF (by dsimp only; omega))
      · exact pspec_ok _ _ _ _ rfl (by omega)
      · exact pspec_err _ _ _ _ rfl (le_refl _)
    have Hrest : ∀ (s : PState) (nm : String) (t2 : Token) (s2 : PState),
        s2.tokens = s.tokens → s.i + 1 ≤ s2.i →
        PSpec s 1 13 (f + 1)
          ((assignOpFromTokenM t2 >>= fun op =>
            expression f >>= fun value =>
            consumeM .SEMICOLON "Expected \x27;\x27 after assignment." >>= fun _ =>
            pure (Stmt.Assign nm op value)) s2) := by
      intro s nm t2 s2 ht2 hi2
      have hlen2 : s2.tokens.length = s.tokens.length := by rw [ht2]
      rcases assignOpFromTokenM_cases t2 s2 with ⟨op3, h3⟩ | ⟨e3, h3⟩ <;>
        simp only [bind_eq, h3]
      · obtain ⟨xE, xO, xF⟩ := ihExpr s2
        cases hx : expression f s2 with
        | ok v s4 =>
          simp only [bind_eq, hx]
          obtain ⟨m1, m2⟩ := xO v s4 hx
          rcases consumeM_cases .SEMICOLON "Expected \x27;\x27 after assignment." s4 with
            ⟨t5, hc5, hlen5⟩ | ⟨e5, hc5⟩ <;> simp only [bind_eq, hc5, pure_eq]
          · exact pspec_ok _ _ _ _ (show s4.tokens = s.tokens from m1.trans ht2)
              (by show s.i + 1 ≤ s4.i + 1; omega)
          · exact pspec_err _ _ _ _ (m1.trans ht2) (by omega)
        | err e4 s4 =>
          simp only [bind_eq, hx]
          obtain ⟨m1, m2⟩ := xE e4 s4 hx
          exact pspec_err _ _ _ _ (m1.trans ht2) (by omega)
        | fuelOut =>
          simp only [bind_eq, hx]
          exact pspec_fuelOut fun hb => absurd hx (xF (by omega))
      · exact pspec_err _ _ _ _ ht2 (by omega)
    have HEOA : ∀ s, PSpec s 1 13 (f + 1) (exprOrAssignStmt (f + 1) s) := by
      intro s
      rw [exprOrAssignStmt]
      cases hcur : s.tokens[s.i]? with
      | none =>
        simp only [bind_eq, checkM_none hcur]
        exact pspec_err _ _ _ _ rfl (le_refl _)
      | some t =>
        simp only [bind_eq, checkM_some hcur, peekIsAssignOpM_eq]
        cases hval : ((if t.kind = TokenKind.EOF then false else t.kind == TokenKind.IDENT)
            && peekAssign s.tokens[s.i + 1]?) with
        | true =>
          have h12 := hval
          rw [Bool.and_eq_true] at h12
          obtain ⟨h1, h2⟩ := h12
          have hne : t.kind ≠ .EOF := by
            intro he
            simp [he] at h1
          simp only [hval, if_true]
          have hadv1 := advanceM_ne_eof hcur hne
          simp only [bind_eq, hadv1]
          rcases advanceM_cases { s with i := s.i + 1 } with ⟨t2, ha2⟩ | ⟨t2, ha2⟩ |
            ⟨e2, ha2⟩ | ⟨e2, ha2⟩ <;> simp only [bind_eq, ha2]
          · exact Hrest s t.lexeme t2 _ rfl (Nat.le_refl _)
          · exact Hrest s t.lexeme t2 _ rfl (by show s.i + 1 ≤ s.i + 1 + 1; omega)
          · exact pspec_err _ _ _ _ rfl (Nat.le_succ _)
          · exact pspec_err _ _ _ _ rfl (by show s.i ≤ s.i + 1 + 1; omega)
        | false =>
          simp only [hval, Bool.false_eq_true, if_false]
          obtain ⟨xE, xO, xF⟩ := ihExpr s
          cases hx : expression f s with
          | ok v s4 =>
            simp only [bind_eq, hx]
            obtain ⟨m1, m2⟩ := xO v s4 hx
            rcases consumeM_cases .SEMICOLON "Expected \x27;\x27 after expression." s4 with
              ⟨t5, hc5, hlen5⟩ | ⟨e5, hc5⟩ <;> simp only [bind_eq, hc5, pure_eq]
            · exact pspec_ok _ _ _ _ (show s4.tokens = s.tokens from m1)
                (by show s.i + 1 ≤ s4.i + 1; omega)
            · exact pspec_err _ _ _ _ m1 (by omega)
          | err e4 s4 =>
            simp only [bind_eq, hx]
            obtain ⟨m1, m2⟩ := xE e4 s4 hx
            exact pspec_err _ _ _ _ m1 (by omega)
          | fuelOut =>
            simp only [bind_eq, hx]
            exact pspec_fuelOut fun hb => absurd hx (xF (by omega))
    have HletDecl : ∀ s, PSpec s 1 18 (f + 1) (letDecl (f + 1) s) := by
      intro s
      rw [letDecl]
      rcases consumeM_cases .IDENT "Expected identifier after \x27let\x27." s with
        ⟨t1, hc1, hlen1⟩ | ⟨e1, hc1⟩ <;> simp only [bind_eq, hc1]
      · rcases matchM_cases [.ASSIGN] { s with i := s.i + 1 } with ⟨hm, hlen2⟩ | hm |
          ⟨e2, hm⟩ <;>
          simp only [bind_eq, pure_eq, ite_app, if_true, if_false, eq_self_iff_true,
            Bool.false_eq_true, hm]
        · dsimp only at hlen2
          obtain ⟨xE, xO, xF⟩ := ihExpr { s with i := s.i + 1 + 1 }
          cases hx : expression f { s with i := s.i + 1 + 1 } with
          | ok v s4 =>
            simp only [bind_eq, hx, pure_eq]
            obtain ⟨m1, m2⟩ := xO v s4 hx
            dsimp only at m1 m2
            rcases consumeM_cases .SEMICOLON "Expected \x27;\x27 after let declaration." s4 with
              ⟨t5, hc5, hlen5⟩ | ⟨e5, hc5⟩ <;> simp only [bind_eq, hc5, pure_eq]
            · exact pspec_ok _ _ _ _ (show s4.tokens = s.tokens from m1)
                (by show s.i + 1 ≤ s4.i + 1; omega)
            · exact pspec_err _ _ _ _ m1 (by omega)
          | err e4 s4 =>
            simp only [bind_eq, hx]
            obtain ⟨m1, m2⟩ := xE e4 s4 hx
            dsimp only at m1 m2
            exact pspec_err _ _ _ _ m1 (by omega)
          | fuelOut =>
            simp only [bind_eq, hx]
            exact pspec_fuelOut fun hb =>
              absurd hx (xF (show 16 * (s.tokens.length - (s.i + 1 + 1)) + 11 ≤ f by omega))
        · rcases consumeM_cases .SEMICOLON "Expected \x27;\x27 after let declaration."
              { s with i := s.i + 1 } with ⟨t5, hc5, hlen5⟩ | ⟨e5, hc5⟩ <;>
            simp only [bind_eq, hc5, pure_eq]
          · exact pspec_ok _ _ _ _ rfl (by show s.i + 1 ≤ s.i + 1 + 1; omega)
          · exact pspec_err _ _ _ _ rfl (Nat.le_succ _)
        · exact pspec_err _ _ _ _ rfl (Nat.le_succ _)
      · exact pspec_err _ _ _ _ rfl (le_refl _)
    have HwhileStmt : ∀ s, PSpec s 1 18 (f + 1) (whileStmt (f + 1) s) := by
      intro s
      rw [whileStmt]
      rcases consumeM_cases .LPAREN "Expected \x27(\x27 after \x27while\x27." s with
        ⟨t1, hc1, hlen1⟩ | ⟨e1, hc1⟩ <;> simp only [bind_eq, hc1]
      · obtain ⟨xE, xO, xF⟩ := ihExpr { s with i := s.i + 1 }
        cases hx : expression f { s with i := s.i + 1 } with
        | ok v s4 =>
          simp only [bind_eq, hx]
          obtain ⟨m1, m2⟩ := xO v s4 hx
          dsimp only at m1 m2
          have hlen4 : s4.tokens.length = s.tokens.length := by rw [m1]
          rcases consumeM_cases .RPAREN "Expected \x27)\x27 after condition." s4 with
            ⟨t5, hc5, hlen5⟩ | ⟨e5, hc5⟩ <;> simp only [bind_eq, hc5]
          · obtain ⟨yE, yO, yF⟩ := ihStmt { s4 with i := s4.i + 1 }
            cases hy : statement f { s4 with i := s4.i + 1 } with
            | ok st s6 =>
              simp only [bind_eq, hy, pure_eq]
              obtain ⟨n1, n2⟩ := yO st s6 hy
              dsimp only at n1 n2
              exact pspec_ok _ _ _ _ (n1.trans m1) (by omega)
            | err e6 s6 =>
              simp only [bind_eq, hy]
              obtain ⟨n1, n2⟩ := yE e6 s6 hy
              dsimp only at n1 n2
              exact pspec_err _ _ _ _ (n1.trans m1) (by omega)
            | fuelOut =>
              simp only [bind_eq, hy]
              exact pspec_fuelOut fun hb =>
                absurd hy (yF (show 16 * (s4.tokens.length - (s4.i + 1)) + 14 ≤ f by omega))
          · exact pspec_err _ _ _ _ m1 (by omega)
        | err e4 s4 =>
          simp only [bind_eq, hx]
          obtain ⟨m1, m2⟩ := xE e4 s4 hx
          dsimp only at m1 m2
          exact pspec_err _ _ _ _ m1 (by omega)
        | fuelOut =>
          simp only [bind_eq, hx]
          exact pspec_fuelOut fun hb =>
            absurd hx (xF (show 16 * (s.tokens.length - (s.i + 1)) + 11 ≤ f by omega))
      · exact pspec_err _ _ _ _ rfl (le_refl _)
    have HifStmt : ∀ s, PSpec s 1 18 (f + 1) (ifStmt (f + 1) s) := by
      intro s
      rw [ifStmt]
      rcases consumeM_cases .LPAREN "Expected \x27(\x27 after \x27if\x27." s with
        ⟨t1, hc1, hlen1⟩ | ⟨e1, hc1⟩ <;> simp only [bind_eq, hc1]
      · obtain ⟨xE, xO, xF⟩ := ihExpr { s with i := s.i + 1 }
        cases hx : expression f { s with i := s.i + 1 } with
        | ok v s4 =>
          simp only [bind_eq, hx]
          obtain ⟨m1, m2⟩ := xO v s4 hx
          dsimp only at m1 m2
          have hlen4 : s4.tokens.length = s.tokens.length := by rw [m1]
          rcases consumeM_cases .RPAREN "Expected \x27)\x27 after condition." s4 with
            ⟨t5, hc5, hlen5⟩ | ⟨e5, hc5⟩ <;> simp only [bind_eq, hc5]
          · obtain ⟨yE, yO, yF⟩ := ihStmt { s4 with i := s4.i + 1 }
            cases hy : statement f { s4 with i := s4.i + 1 } with
            | ok st s6 =>
              simp only [bind_eq, hy]
              obtain ⟨n1, n2⟩ := yO st s6 hy
              dsimp only at n1 n2
              have hlen6 : s6.tokens.length = s.tokens.length := by rw [n1, m1]
              rcases matchM_cases [.ELSE] s6 with ⟨hm, hlen7⟩ | hm | ⟨e7, hm⟩ <;>
                simp only [bind_eq, pure_eq, ite_app, if_true, if_false, eq_self_iff_true,
                  Bool.false_eq_true, hm]
              · obtain ⟨zE, zO, zF⟩ := ihStmt { s6 with i := s6.i + 1 }
                cases hz : statement f { s6 with i := s6.i + 1 } with
                | ok st2 s8 =>
                  simp only [bind_eq, hz, pure_eq]
                  obtain ⟨p1, p2⟩ := zO st2 s8 hz
                  dsimp only at p1 p2
                  exact pspec_ok _ _ _ _ (p1.trans (n1.trans m1)) (by omega)
                | err e8 s8 =>
                  simp only [bind_eq, hz]
                  obtain ⟨p1, p2⟩ := zE e8 s8 hz
                  dsimp only at p1 p2
                  exact pspec_err _ _ _ _ (p1.trans (n1.trans m1)) (by omega)
                | fuelOut =>
                  simp only [bind_eq, hz]
                  exact pspec_fuelOut fun hb =>
                    absurd hz (zF (show 16 * (s6.tokens.length - (s6.i + 1)) + 14 ≤ f by omega))
              · exact pspec_ok _ _ _ _ (n1.trans m1) (by omega)
              · exact pspec_err _ _ _ _ (n1.trans m1) (by omega)
            | err e6 s6 =>
              simp only [bind_eq, hy]
              obtain ⟨n1, n2⟩ := yE e6 s6 hy
              dsimp only at n1 n2
              exact pspec_err _ _ _ _ (n1.trans m1) (by omega)
            | fuelOut =>
              simp only [bind_eq, hy]
              exact pspec_fuelOut fun hb =>
                absurd hy (yF (show 16 * (s4.tokens.length - (s4.i + 1)) + 14 ≤ f by omega))
          · exact pspec_err _ _ _ _ m1 (by omega)
        | err e4 s4 =>
          simp only [bind_eq, hx]
          obtain ⟨m1, m2⟩ := xE e4 s4 hx
          dsimp only at m1 m2
          exact pspec_err _ _ _ _ m1 (by omega)
        | fuelOut =>
          simp only [bind_eq, hx]
          exact pspec_fuelOut fun hb =>
            absurd hx (xF (show 16 * (s.tokens.length - (s.i + 1)) + 11 ≤ f by omega))
      · exact pspec_err _ _ _ _ rfl (le_refl _)
    have HblockW : ∀ s, PSpec s 1 18 (f + 1) (blockStmtAlreadyOpened (f + 1) s) := by
      intro s
      rw [blockStmtAlreadyOpened]
      obtain ⟨bE, bO, bF⟩ := ihBlockS s
      cases hbs : blockStmtsAlreadyOpened f s with
      | ok a s2 =>
        simp only [bind_eq, hbs, pure_eq]
        obtain ⟨m1, m2⟩ := bO a s2 hbs
        exact pspec_ok _ _ _ _ m1 (by omega)
      | err e2 s2 =>
        simp only [bind_eq, hbs]
        obtain ⟨m1, m2⟩ := bE e2 s2 hbs
        exact pspec_err _ _ _ _ m1 (by omega)
      | fuelOut =>
        simp only [bind_eq, hbs]
        exact pspec_fuelOut fun hb => absurd hbs (bF (by omega))
    have Hstatement : ∀ s, PSpec s 1 14 (f + 1) (statement (f + 1) s) := by
      intro s
      rw [statement]
      rcases matchM_cases [.IF] s with ⟨hm1, hlen⟩ | hm1 | ⟨e, hm1⟩ <;>
        simp only [bind_eq, pure_eq, ite_app, if_true, if_false, eq_self_iff_true,
          Bool.false_eq_true, hm1]
      · exact pspec_tail (ihIf { s with i := s.i + 1 }) rfl (Nat.le_succ _)
          (show s.i + 1 ≤ s.i + 1 + 1 by omega)
          (fun hb => show 16 * (s.tokens.length - (s.i + 1)) + 18 ≤ f by omega)
      · rcases matchM_cases [.WHILE] s with ⟨hm2, hlen⟩ | hm2 | ⟨e, hm2⟩ <;>
          simp only [bind_eq, pure_eq, ite_app, if_true, if_false, eq_self_iff_true,
            Bool.false_eq_true, hm2]
        · exact pspec_tail (ihWhile { s with i := s.i + 1 }) rfl (Nat.le_succ _)
            (show s.i + 1 ≤ s.i + 1 + 1 by omega)
            (fun hb => show 16 * (s.tokens.length - (s.i + 1)) + 18 ≤ f by omega)
        · rcases matchM_cases [.LBRACE] s with ⟨hm3, hlen⟩ | hm3 | ⟨e, hm3⟩ <;>
            simp only [bind_eq, pure_eq, ite_app, if_true, if_false, eq_self_iff_true,
              Bool.false_eq_true, hm3]
          · exact pspec_tail (ihBlockW { s with i := s.i + 1 }) rfl (Nat.le_succ _)
              (show s.i + 1 ≤ s.i + 1 + 1 by omega)
              (fun hb => show 16 * (s.tokens.length - (s.i + 1)) + 18 ≤ f by omega)
          · exact pspec_tail (ihEOA s) rfl (le_refl _) (by omega) (fun hb => by omega)
          · exact pspec_err _ _ _ _ rfl (le_refl _)
        · exact pspec_err _ _ _ _ rfl (le_refl _)
      · exact pspec_err _ _ _ _ rfl (le_refl _)
    have HdeclCore : ∀ s, PSpec s 1 15 (f + 1) (declCore (f + 1) s) := by
      intro s
      rw [declCore]
      rcases matchM_cases [.FUNC] s with ⟨hm1, hlen⟩ | hm1 | ⟨e, hm1⟩ <;>
        simp only [bind_eq, pure_eq, ite_app, if_true, if_false, eq_self_iff_true,
          Bool.false_eq_true, hm1]
      · exact pspec_tail (ihFn { s with i := s.i + 1 }) rfl (Nat.le_succ _)
          (show s.i + 1 ≤ s.i + 1 + 1 by omega)
          (fun hb => show 16 * (s.tokens.length - (s.i + 1)) + 18 ≤ f by omega)
      · rcases matchM_cases [.LET] s with ⟨hm2, hlen⟩ | hm2 | ⟨e, hm2⟩ <;>
          simp only [bind_eq, pure_eq, ite_app, if_true, if_false, eq_self_iff_true,
            Bool.false_eq_true, hm2]
        · exact pspec_tail (ihLet { s with i := s.i + 1 }) rfl (Nat.le_succ _)
            (show s.i + 1 ≤ s.i + 1 + 1 by omega)
            (fun hb => show 16 * (s.tokens.length - (s.i + 1)) + 18 ≤ f by omega)
        · exact pspec_tail (ihStmt s) rfl (le_refl _) (by omega) (fun hb => by omega)
        · exact pspec_err _ _ _ _ rfl (le_refl _)
      · exact pspec_err _ _ _ _ rfl (le_refl _)
    have Hfnrest : ∀ (s : PState) (nm : String) (ps : List String) (s5 : PState),
        s5.tokens = s.tokens → s.i + 1 ≤ s5.i →
        PSpec s 1 18 (f + 1)
          ((consumeM .RPAREN "Expected \x27)\x27 after parameters." >>= fun _ =>
            consumeM .LBRACE "Expected \x27\x7b\x27 before function body." >>= fun _ =>
            blockStmtsAlreadyOpened f >>= fun body =>
            pure (Stmt.Fn nm ps body)) s5) := by
      intro s nm ps s5 ht5 hi5
      have hlen5 : s5.tokens.length = s.tokens.length := by rw [ht5]
      rcases consumeM_cases .RPAREN "Expected \x27)\x27 after parameters." s5 with
        ⟨t6, hc6, hlen6⟩ | ⟨e6, hc6⟩ <;> simp only [bind_eq, hc6]
      · rcases consumeM_cases .LBRACE "Expected \x27\x7b\x27 before function body."
            { s5 with i := s5.i + 1 } with ⟨t7, hc7, hlen7⟩ | ⟨e7, hc7⟩ <;>
          simp only [bind_eq, hc7]
        · dsimp only at hlen7
          obtain ⟨bE, bO, bF⟩ := ihBlockS { s5 with i := s5.i + 1 + 1 }
          cases hbs : blockStmtsAlreadyOpened f { s5 with i := s5.i + 1 + 1 } with
          | ok body s8 =>
            simp only [bind_eq, hbs, pure_eq]
            obtain ⟨n1, n2⟩ := bO body s8 hbs
            dsimp only at n1 n2
            exact pspec_ok _ _ _ _ (n1.trans ht5) (by omega)
          | err e8 s8 =>
            simp only [bind_eq, hbs]
            obtain ⟨n1, n2⟩ := bE e8 s8 hbs
            dsimp only at n1 n2
            exact pspec_err _ _ _ _ (n1.trans ht5) (by omega)
          | fuelOut =>
            simp only [bind_eq, hbs]
            exact pspec_fuelOut fun hb =>
              absurd hbs (bF (show 16 * (s5.tokens.length - (s5.i + 1 + 1)) + 17 ≤ f by omega))
        · exact pspec_err _ _ _ _ ht5 (show s.i ≤ s5.i + 1 by omega)
      · exact pspec_err _ _ _ _ ht5 (by omega)
    have HfnDecl : ∀ s, PSpec s 1 18 (f + 1) (fnDecl (f + 1) s) := by
      intro s
      rw [fnDecl]
      rcases consumeM_cases .IDENT "Expected function name after \x27func\x27." s with
        ⟨t1, hc1, hlen1⟩ | ⟨e1, hc1⟩ <;> simp only [bind_eq, hc1]
      · rcases consumeM_cases .LPAREN "Expected \x27(\x27 after function name."
            { s with i := s.i + 1 } with ⟨t2, hc2, hlen2⟩ | ⟨e2, hc2⟩ <;>
          simp only [bind_eq, hc2]
        · dsimp only at hlen2
          cases hcur2 : s.tokens[s.i + 1 + 1]? with
          | none =>
            have hch := checkM_none (show ({ s with i := s.i + 1 + 1 } : PState).tokens[({ s with i := s.i + 1 + 1 } : PState).i]? = none from hcur2) TokenKind.RPAREN
            simp only [bind_eq, hch]
            exact pspec_err _ _ _ _ rfl (by show s.i ≤ s.i + 1 + 1; omega)
          | some t3 =>
            have hch := checkM_some (show ({ s with i := s.i + 1 + 1 } : PState).tokens[({ s with i := s.i + 1 + 1 } : PState).i]? = some t3 from hcur2) TokenKind.RPAREN
            simp only [bind_eq, hch]
            cases hval : (if t3.kind = TokenKind.EOF then false else t3.kind == TokenKind.RPAREN) with
            | true =>
              simp only [hval, if_true, eq_self_iff_true, pure_eq, bind_eq, ite_app]
              exact Hfnrest s t1.lexeme [] { s with i := s.i + 1 + 1 } rfl
                (by show s.i + 1 ≤ s.i + 1 + 1; omega)
            | false =>
              simp only [hval, Bool.false_eq_true, if_false, bind_eq, ite_app]
              obtain ⟨pE, pO, pF⟩ := paramsLoop_spec f { s with i := s.i + 1 + 1 }
              cases hp : paramsLoop f { s with i := s.i + 1 + 1 } with
              | ok ps s5 =>
                simp only [bind_eq, hp]
                obtain ⟨m1, m2⟩ := pO ps s5 hp
                dsimp only at m1 m2
                exact Hfnrest s t1.lexeme ps s5 m1 (by omega)
              | err e5 s5 =>
                simp only [bind_eq, hp]
                obtain ⟨m1, m2⟩ := pE e5 s5 hp
                dsimp only at m1 m2
                exact pspec_err _ _ _ _ m1 (by omega)
              | fuelOut =>
                simp only [bind_eq, hp]
                exact pspec_fuelOut fun hb =>
                  absurd hp (pF (show 16 * (s.tokens.length - (s.i + 1 + 1)) + 2 ≤ f by omega))
        · exact pspec_err _ _ _ _ rfl (Nat.le_succ _)
      · exact pspec_err _ _ _ _ rfl (le_refl _)
    have HblockS : ∀ s, PSpec s 1 17 (f + 1) (blockStmtsAlreadyOpened (f + 1) s) := by
      intro s
      rw [blockStmtsAlreadyOpened]
      cases hcur : s.tokens[s.i]? with
      | none =>
        simp only [bind_eq, checkM_none hcur]
        exact pspec_err _ _ _ _ rfl (le_refl _)
      | some t =>
        have hlen : s.i < s.tokens.length := (List.getElem?_eq_some_iff.mp hcur).1
        simp only [bind_eq, checkM_some hcur, isAtEndM_some hcur]
        by_cases he : t.kind = .EOF
        · simp only [he, eq_self_iff_true, if_true, beq_self_eq_true, Bool.not_true,
            Bool.and_false, Bool.false_eq_true, if_false, bind_eq,
            consumeM_throw hcur (Or.inl he)]
          exact pspec_err _ _ _ _ rfl (le_refl _)
        · by_cases hrb : t.kind = .RBRACE
          · have hrbb : (t.kind == TokenKind.RBRACE) = true := by simp [hrb]
            have heb : (t.kind == TokenKind.EOF) = false := by simp [he]
            simp only [if_neg he, hrbb, heb, Bool.not_true, Bool.not_false, Bool.and_false,
              Bool.false_and, Bool.false_eq_true, if_false, bind_eq,
              consumeM_ok hcur he hrb, pure_eq]
            exact pspec_ok _ _ _ _ rfl (Nat.le_refl _)
          · have hrbb : (t.kind == TokenKind.RBRACE) = false := by simp [hrb]
            have heb : (t.kind == TokenKind.EOF) = false := by simp [he]
            simp only [if_neg he, hrbb, heb, Bool.not_false, Bool.and_self, if_true,
              eq_self_iff_true, bind_eq]
            obtain ⟨⟨dE, dO, dF⟩, dP⟩ := ihDecl s
            cases hd : declaration f s with
            | ok a s2 =>
              simp only [bind_eq, hd]
              obtain ⟨m1, m2⟩ := dO a s2 hd
              have hprog : s.i + 1 ≤ s2.i := dP t hcur he a s2 hd
              have hlen2 : s2.tokens.length = s.tokens.length := by rw [m1]
              obtain ⟨bE, bO, bF⟩ := ihBlockS s2
              cases hbs : blockStmtsAlreadyOpened f s2 with
              | ok rest s3 =>
                simp only [bind_eq, hbs]
                obtain ⟨n1, n2⟩ := bO rest s3 hbs
                cases a with
                | some st =>
                  simp only [pure_eq]
                  exact pspec_ok _ _ _ _ (n1.trans m1) (by omega)
                | none =>
                  simp only [pure_eq]
                  exact pspec_ok _ _ _ _ (n1.trans m1) (by omega)
              | err e3 s3 =>
                simp only [bind_eq, hbs]
                obtain ⟨n1, n2⟩ := bE e3 s3 hbs
                exact pspec_err _ _ _ _ (n1.trans m1) (by omega)
              | fuelOut =>
                simp only [bind_eq, hbs]
                exact pspec_fuelOut fun hb => absurd hbs (bF (by omega))
            | err e2 s2 =>
              simp only [bind_eq, hd]
              obtain ⟨m1, m2⟩ := dE e2 s2 hd
              exact pspec_err _ _ _ _ m1 (by omega)
            | fuelOut =>
              simp only [bind_eq, hd]
              exact pspec_fuelOut fun hb => absurd hd (dF (by omega))
    have Hdeclaration : ∀ s, PSpec s 0 16 (f + 1) (declaration (f + 1) s) ∧
        (∀ t, s.tokens[s.i]? = some t → t.kind ≠ .EOF →
          ∀ a s', declaration (f + 1) s = .ok a s' → s.i + 1 ≤ s'.i) := by
      intro s
      obtain ⟨cE, cO, cF⟩ := ihCore s
      constructor
      · rw [declaration]
        cases hd : declCore f s with
        | ok st s1 =>
          simp only [hd]
          obtain ⟨m1, m2⟩ := cO st s1 hd
          exact pspec_ok _ _ _ _ m1 (by omega)
        | err e s1 =>
          obtain ⟨m1, m2⟩ := cE e s1 hd
          have hlen1 : s1.tokens.length = s.tokens.length := by rw [m1]
          cases e with
          | parseErr t0 m0 =>
            simp only [hd, bind_eq, pushErrM_eq]
            cases hsync : synchronizeM f
                { s1 with errors := s1.errors ++ [⟨t0, m0⟩] } with
            | ok u s2 =>
              simp only [hsync, pure_eq]
              obtain ⟨n1, n2⟩ := synchronizeM_mono hsync s2 rfl
              dsimp only at n1 n2
              exact pspec_ok _ _ _ _ (n1.trans m1) (by omega)
            | err e2 s2 =>
              simp only [hsync]
              obtain ⟨n1, n2⟩ := synchronizeM_mono hsync s2 rfl
              dsimp only at n1 n2
              exact pspec_err _ _ _ _ (n1.trans m1) (by omega)
            | fuelOut =>
              simp only [hsync]
              exact pspec_fuelOut fun hb => absurd hsync
                (synchronizeM_noFuel (show s1.tokens.length - s1.i < f by omega))
          | fatal m0 =>
            simp only [hd]
            exact pspec_err _ _ _ _ m1 (by omega)
        | fuelOut =>
          simp only [hd]
          exact pspec_fuelOut fun hb => absurd hd (cF (by omega))
      · intro t hcur hne a s' hok
        simp only [declaration] at hok
        cases hd : declCore f s with
        | ok st s1 =>
          simp only [hd] at hok
          obtain ⟨m1, m2⟩ := cO st s1 hd
          cases hok
          omega
        | err e s1 =>
          obtain ⟨m1, m2⟩ := cE e s1 hd
          cases e with
          | parseErr t0 m0 =>
            simp only [hd] at hok
            simp only [bind_eq, pushErrM_eq] at hok
            cases hsync : synchronizeM f
                { s1 with errors := s1.errors ++ [⟨t0, m0⟩] } with
            | ok u s2 =>
              simp only [hsync] at hok
              simp only [pure_eq] at hok
              obtain ⟨n1, n2⟩ := synchronizeM_mono hsync s2 rfl
              dsimp only at n1 n2
              cases hok
              rcases Nat.lt_or_ge s.i s1.i with hlt | hge
              · omega
              · have heq : s1.i = s.i := le_antisymm hge m2
                have hcur1 : ({ s1 with errors := s1.errors ++ [⟨t0, m0⟩] } :
                    PState).tokens[({ s1 with errors := s1.errors ++ [⟨t0, m0⟩] } :
                    PState).i]? = some t := by
                  show s1.tokens[s1.i]? = some t
                  rw [m1, heq]
                  exact hcur
                have hadv := advanceM_ne_eof hcur1 hne
                rw [synchronizeM] at hsync
                simp only [bind_eq, hadv] at hsync
                have hmono := syncLoop_mono f _ _ hsync s' rfl
                obtain ⟨q1, q2⟩ := hmono
                dsimp only at q2
                omega
            | err e2 s2 =>
              simp only [hsync] at hok
              cases hok
            | fuelOut =>
              simp only [hsync] at hok
              cases hok
          | fatal m0 =>
            simp only [hd] at hok
            cases hok
        | fuelOut =>
          simp only [hd] at hok
          cases hok
    have HPP : ∀ s, PSpec s 0 17 (f + 1) (parseProgram (f + 1) s) := by
      intro s
      rw [parseProgram]
      cases hcur : s.tokens[s.i]? with
      | none =>
        have hend : isAtEndM s
            = .err (.fatal "Parser invariant violated: missing EOF token") s := by
          simp [isAtEndM, currentM, bind_eq, hcur]
        simp only [bind_eq, hend]
        exact pspec_err _ _ _ _ rfl (le_refl _)
      | some t =>
        have hlen : s.i < s.tokens.length := (List.getElem?_eq_some_iff.mp hcur).1
        simp only [bind_eq, isAtEndM_some hcur]
        by_cases he : t.kind = .EOF
        · simp only [he, beq_self_eq_true, if_true, pure_eq]
          exact pspec_ok _ _ _ _ rfl (by omega)
        · have heb : (t.kind == TokenKind.EOF) = false := by simp [he]
          simp only [heb, Bool.false_eq_true, if_false]
          obtain ⟨⟨dE, dO, dF⟩, dP⟩ := ihDecl s
          cases hd : declaration f s with
          | ok a s2 =>
            simp only [bind_eq, hd]
            have hprog : s.i + 1 ≤ s2.i := dP t hcur he a s2 hd
            obtain ⟨m1, m2⟩ := dO a s2 hd
            have hlen2 : s2.tokens.length = s.tokens.length := by rw [m1]
            obtain ⟨pE, pO, pF⟩ := ihPP s2
            cases hp : parseProgram f s2 with
            | ok rest s3 =>
              simp only [bind_eq, hp]
              obtain ⟨n1, n2⟩ := pO rest s3 hp
              cases a with
              | some st =>
                simp only [pure_eq]
                exact pspec_ok _ _ _ _ (n1.trans m1) (by omega)
              | none =>
                simp only [pure_eq]
                exact pspec_ok _ _ _ _ (n1.trans m1) (by omega)
            | err e3 s3 =>
              simp only [bind_eq, hp]
              obtain ⟨n1, n2⟩ := pE e3 s3 hp
              exact pspec_err _ _ _ _ (n1.trans m1) (by omega)
            | fuelOut =>
              simp only [bind_eq, hp]
              exact pspec_fuelOut fun hb => absurd hp (pF (by omega))
          | err e2 s2 =>
            simp only [bind_eq, hd]
            obtain ⟨m1, m2⟩ := dE e2 s2 hd
            exact pspec_err _ _ _ _ m1 (by omega)
          | fuelOut =>
            simp only [bind_eq, hd]
            exact pspec_fuelOut fun hb => absurd hd (dF (by omega))
    exact ⟨Hprimary, HcallLoop, Hcall, Hunary, HFactorLoop, HFactor, HTermLoop, HTerm,
      HCmpLoop, HCmp, HEqLoop, HEq, HAndLoop, HAnd, HOrLoop, HOr, Hexpression,
      HargsLoop, HEOA, HletDecl, HfnDecl, HifStmt, HwhileStmt, HblockS, HblockW,
      Hstatement, HdeclCore, Hdeclaration, HPP⟩

end LIM

open LIM

set_option maxHeartbeats 2000000 in
/-- C1: for well-formed expressions over + - * / and parentheses the parser
follows the precedence ladder: for all literal values, `a + b * c` parses with
the product nested under the sum and `(a + b) * c` parses as a grouping node
times `c`; the two trees denote `a + b * c` and `(a + b) * c` under standard
arithmetic, in particular 14 and 20 at the spec's example `2 + 3 * 4` and
`(2 + 3) * 4`. -/
theorem claim1_arith_precedence :
    (∀ a b c : Int,
      (runParse 20 [numTok a, symTok .PLUS, numTok b, symTok .STAR, numTok c,
        symTok .SEMICOLON, eofTok]).val?
        = some [Stmt.ExprStmt (Expr.binary .PLUS (Expr.num a)
            (Expr.binary .STAR (Expr.num b) (Expr.num c)))]) ∧
    (∀ a b c : Int,
      (runParse 30 [symTok .LPAREN, numTok a, symTok .PLUS, numTok b, symTok .RPAREN,
        symTok .STAR, numTok c, symTok .SEMICOLON, eofTok]).val?
        = some [Stmt.ExprStmt (Expr.binary .STAR
            (Expr.group (Expr.binary .PLUS (Expr.num a) (Expr.num b))) (Expr.num c))]) ∧
    (∀ a b c : Int,
      denoteArith (Expr.binary .PLUS (Expr.num a)
        (Expr.binary .STAR (Expr.num b) (Expr.num c))) = some (a + b * c)) ∧
    (∀ a b c : Int,
      denoteArith (Expr.binary .STAR
        (Expr.group (Expr.binary .PLUS (Expr.num a) (Expr.num b))) (Expr.num c))
        = some ((a + b) * c)) ∧
    denoteArith (Expr.binary .PLUS (Expr.num 2)
      (Expr.binary .STAR (Expr.num 3) (Expr.num 4))) = some 14 ∧
    denoteArith (Expr.binary .STAR
      (Expr.group (Expr.binary .PLUS (Expr.num 2) (Expr.num 3))) (Expr.num 4))
      = some 20 :=
  ⟨fun _ _ _ => rfl, fun _ _ _ => rfl, fun _ _ _ => rfl, fun _ _ _ => rfl, rfl, rfl⟩

set_option maxHeartbeats 4000000 in
/-- C2: every chain of two same-tier binary operators folds left: for every
pair of operator token kinds from one tier (or, and, equality, comparison,
term, factor) and all literals, `a o1 b o2 c` parses with `o1` applied first;
in particular `10 - 3 - 2` parses as `(10 - 3) - 2`, which denotes 5 and not
9 (9 being the denotation of the right-associated tree). -/
theorem claim2_left_assoc :
    (∀ (a b c : Int) (k1 k2 : TokenKind), (k1, k2) ∈ sameTierPairs →
      (runParse 20 [numTok a, symTok k1, numTok b, symTok k2, numTok c,
        symTok .SEMICOLON, eofTok]).val?
        = some [Stmt.ExprStmt (Expr.binary (binOpOfKind k2)
            (Expr.binary (binOpOfKind k1) (Expr.num a) (Expr.num b)) (Expr.num c))]) ∧
    denoteArith (Expr.binary .MINUS
      (Expr.binary .MINUS (Expr.num 10) (Expr.num 3)) (Expr.num 2)) = some 5 ∧
    denoteArith (Expr.binary .MINUS
      (Expr.binary .MINUS (Expr.num 10) (Expr.num 3)) (Expr.num 2)) ≠ some 9 ∧
    denoteArith (Expr.binary .MINUS (Expr.num 10)
      (Expr.binary .MINUS (Expr.num 3) (Expr.num 2))) = some 9 := by
  refine ⟨?_, rfl, by decide, rfl⟩
  intro a b c k1 k2 h
  fin_cases h <;> rfl

/-- Witness for C2 at the spec's example: `10 - 3 - 2` parses
left-associated. -/
theorem claim2_left_assoc_witness :
    (runParse 20 [numTok 10, symTok .MINUS, numTok 3, symTok .MINUS, numTok 2,
      symTok .SEMICOLON, eofTok]).val?
      = some [Stmt.ExprStmt (Expr.binary (binOpOfKind .MINUS)
          (Expr.binary (binOpOfKind .MINUS) (Expr.num 10) (Expr.num 3)) (Expr.num 2))] :=
  claim2_left_assoc.1 10 3 2 .MINUS .MINUS (by simp [sameTierPairs])

set_option maxHeartbeats 2000000 in
/-- C4: errors are accumulated rather than stopping at the first: the program
with two faulty `let` declarations separated by the valid statement `x = 1;`
parses to a normal return carrying exactly the middle statement, with exactly
the two recorded parse errors. -/
theorem claim4_batch_errors :
    runParse 30 twoFaultTokens
      = .ok [Stmt.Assign "x" .ASSIGN (Expr.num 1)]
          { tokens := twoFaultTokens, i := 10,
            errors := [⟨numTok 1, "Expected identifier after \x27let\x27."⟩,
                       ⟨numTok 2, "Expected identifier after \x27let\x27."⟩] } ∧
    ((runParse 30 twoFaultTokens).state?.map fun s => s.errors.length) = some 2 :=
  ⟨rfl, rfl⟩

/-- C7: whenever the parser's recorded error list is non-empty, the driver
reports one line per error and exits with status 1, and the outcome is never
an interpreter run. -/
theorem claim7_driver_gate :
    ∀ (errors : List ParseError) (ast : List Stmt), errors ≠ [] →
      driverAfterParse errors ast
        = .exitWithErrors (errors.map reportLine) 1 ∧
      ∀ ast', driverAfterParse errors ast ≠ .interpreted ast' := by
  intro errors ast h
  have hl : errors.length ≠ 0 := by simpa using h
  refine ⟨?_, ?_⟩ <;> simp [driverAfterParse, hl]

/-- Witness for C7 on a singleton error list. -/
theorem claim7_driver_gate_witness :
    driverAfterParse [⟨eofTok, "m"⟩] []
      = .exitWithErrors ([⟨eofTok, "m"⟩].map reportLine) 1 :=
  (claim7_driver_gate [⟨eofTok, "m"⟩] [] (by decide)).1




set_option maxHeartbeats 2000000 in
/-- C6: a consume of an expected token kind that is not satisfied throws a
structured ParseError carrying the current (offending) token and the message;
the end-of-input sentinel never satisfies any expected kind, so reaching end
of input inside an open construct raises the same expected-token failure.
Concretely, a call argument list missing its closing parenthesis records
"Expected ')' after arguments." at the offending token, and a group reaching
end of input records "Expected ')' after expression." at the end-of-input
token. -/
theorem claim6_expected_token_errors :
    (∀ (s : PState) (k : TokenKind) (msg : String) (t : Token),
      s.tokens[s.i]? = some t → t.kind = .EOF →
      consumeM k msg s = .err (.parseErr t msg) s) ∧
    (∀ (s : PState) (k : TokenKind) (msg : String) (t : Token),
      s.tokens[s.i]? = some t → t.kind ≠ k →
      consumeM k msg s = .err (.parseErr t msg) s) ∧
    runParse 30 callFaultTokens
      = .ok []
          { tokens := callFaultTokens, i := 4,
            errors := [⟨symTok .SEMICOLON, "Expected \x27)\x27 after arguments."⟩] } ∧
    runParse 30 groupFaultTokens
      = .ok []
          { tokens := groupFaultTokens, i := 2,
            errors := [⟨eofTok, "Expected \x27)\x27 after expression."⟩] } := by
  refine ⟨?_, ?_, rfl, rfl⟩
  · intro s k msg t h he
    exact consumeM_throw h (.inl he)
  · intro s k msg t h hne
    exact consumeM_throw h (.inr hne)

/-- Witness for C6: consuming an expected closing parenthesis at the
end-of-input sentinel throws the structured expected-token error. -/
theorem claim6_expected_token_errors_witness :
    consumeM .RPAREN "Expected \x27)\x27 after arguments."
        { tokens := [eofTok], i := 0, errors := [] }
      = .err (.parseErr eofTok "Expected \x27)\x27 after arguments.")
          { tokens := [eofTok], i := 0, errors := [] } :=
  claim6_expected_token_errors.1 { tokens := [eofTok], i := 0, errors := [] }
    .RPAREN "Expected \x27)\x27 after arguments." eofTok rfl rfl

set_option maxHeartbeats 2000000 in
/-- C8: the recovery handler of declaration catches only recoverable
ParseError values: a plain fatal invariant-violation error thrown inside the
declaration is rethrown unchanged (errors list untouched); concretely,
parsing a token array missing its end-of-input sentinel aborts with the fatal
missing-EOF error and records no parse error. -/
theorem claim8_fatal_not_recovered :
    (∀ (f : Nat) (s : PState) (m : String) (s1 : PState),
      declCore f s = .err (.fatal m) s1 →
      declaration (f + 1) s = .err (.fatal m) s1) ∧
    runParse 30 [numTok 1]
      = .err (.fatal "Parser invariant violated: missing EOF token")
          { tokens := [numTok 1], i := 1, errors := [] } := by
  refine ⟨?_, rfl⟩
  intro f s m s1 h
  simp [declaration, h]

set_option maxHeartbeats 2000000 in
/-- Witness for C8: the fatal missing-EOF error thrown inside a concrete
declaration is rethrown past the recovery handler. -/
theorem claim8_fatal_not_recovered_witness :
    declaration 29 { tokens := [numTok 1], i := 0, errors := [] }
      = .err (.fatal "Parser invariant violated: missing EOF token")
          { tokens := [numTok 1], i := 1, errors := [] } :=
  claim8_fatal_not_recovered.1 28 { tokens := [numTok 1], i := 0, errors := [] }
    "Parser invariant violated: missing EOF token"
    { tokens := [numTok 1], i := 1, errors := [] } rfl

set_option maxHeartbeats 2000000 in
/-- C10: a unary expression beginning with either the bang token or the `not`
keyword reduces to the same computation, a NOT node wrapped around the
recursive unary parse of the rest (only a leading minus yields a MINUS node),
so bang and `not` are indistinguishable in the AST; unary nesting is
right-associative by direct recursion. -/
theorem claim10_unary_not_bang :
    (∀ (f : Nat) (s : PState) (t : Token),
      s.tokens[s.i]? = some t → (t.kind = .BANG ∨ t.kind = .NOT) →
      unary (f + 1) s
        = Res.map (Expr.unary .NOT) (unary f { s with i := s.i + 1 })) ∧
    (∀ (f : Nat) (s : PState) (t : Token),
      s.tokens[s.i]? = some t → t.kind = .MINUS →
      unary (f + 1) s
        = Res.map (Expr.unary .MINUS) (unary f { s with i := s.i + 1 })) ∧
    (∀ a : Int,
      (unary 20
          { tokens := [⟨.BANG, "!", none, 0⟩, numTok a, eofTok], i := 0,
            errors := [] }).val?
        = some (Expr.unary .NOT (Expr.num a)) ∧
      (unary 20
          { tokens := [⟨.NOT, "not", none, 0⟩, numTok a, eofTok], i := 0,
            errors := [] }).val?
        = some (Expr.unary .NOT (Expr.num a))) ∧
    (∀ a : Int,
      (unary 20
          { tokens := [symTok .BANG, symTok .NOT, symTok .MINUS, numTok a, eofTok],
            i := 0, errors := [] }).val?
        = some (Expr.unary .NOT (Expr.unary .NOT (Expr.unary .MINUS (Expr.num a))))) := by
  refine ⟨?_, ?_, fun a => ⟨rfl, rfl⟩, fun a => rfl⟩
  · intro f s t h hk
    have hne : t.kind ≠ .EOF := by rcases hk with hk | hk <;> simp [hk]
    have hmem : t.kind ∈ [TokenKind.NOT, TokenKind.MINUS, TokenKind.BANG] := by
      rcases hk with hk | hk <;> simp [hk]
    have hm := matchM_found h hne hmem
    have hprev : previousM { s with i := s.i + 1 } = .ok t { s with i := s.i + 1 } := by
      simp [previousM, h]
    rcases hk with hk | hk <;>
      cases hr : unary f { s with i := s.i + 1 } <;>
        simp [unary, bind_eq, hm, ite_app, hprev, hr, pure_eq, Res.map, hk]
  · intro f s t h hk
    have hne : t.kind ≠ .EOF := by simp [hk]
    have hmem : t.kind ∈ [TokenKind.NOT, TokenKind.MINUS, TokenKind.BANG] := by
      simp [hk]
    have hm := matchM_found h hne hmem
    have hprev : previousM { s with i := s.i + 1 } = .ok t { s with i := s.i + 1 } := by
      simp [previousM, h]
    cases hr : unary f { s with i := s.i + 1 } <;>
      simp [unary, bind_eq, hm, ite_app, hprev, hr, pure_eq, Res.map, hk]

set_option maxHeartbeats 2000000 in
/-- Witness for C10: a concrete bang-prefixed unary parse equals the mapped
recursive parse. -/
theorem claim10_unary_not_bang_witness :
    unary 20 { tokens := [symTok .BANG, numTok 5, eofTok], i := 0, errors := [] }
      = Res.map (Expr.unary .NOT)
          (unary 19 { tokens := [symTok .BANG, numTok 5, eofTok], i := 1, errors := [] }) :=
  claim10_unary_not_bang.1 19
    { tokens := [symTok .BANG, numTok 5, eofTok], i := 0, errors := [] }
    (symTok .BANG) rfl (.inl rfl)

/-- C3: panic-mode recovery: when the body of a declaration throws a
recoverable ParseError, the parser records the token-plus-message pair at the
end of its error list, synchronizes, and yields null; synchronization only
moves the index forward (discarding tokens, touching neither the token array
nor the recorded errors) and stops exactly at end of input, just past a
semicolon, or before one of let, func, if, while; and a null (failed)
declaration contributes no statement to the program. -/
theorem claim3_panic_recovery :
    (∀ (f : Nat) (s : PState) (t : Token) (m : String) (s1 : PState),
      declCore f s = .err (.parseErr t m) s1 →
      declaration (f + 1) s
        = Res.map (fun _ => (none : Option Stmt))
            (synchronizeM f { s1 with errors := s1.errors ++ [⟨t, m⟩] })) ∧
    (∀ (f : Nat) (s s2 : PState), synchronizeM f s = .ok () s2 →
      s2.tokens = s.tokens ∧ s2.errors = s.errors ∧ s.i ≤ s2.i ∧ syncStop s2) ∧
    (∀ (f : Nat) (s : PState) (t : Token) (s2 : PState) (rest : List Stmt)
        (s3 : PState),
      s.tokens[s.i]? = some t → t.kind ≠ .EOF →
      declaration f s = .ok none s2 → parseProgram f s2 = .ok rest s3 →
      parseProgram (f + 1) s = .ok rest s3) := by
  refine ⟨?_, fun f s s2 h => synchronizeM_post h, ?_⟩
  · intro f s t m s1 h
    simp only [declaration, h]
    simp only [bind_eq, pushErrM, getS, setS, pure_eq]
    cases hr : synchronizeM f { s1 with errors := s1.errors ++ [⟨t, m⟩] } <;>
      simp [bind_eq, hr, pure_eq, Res.map]
  · intro f s t s2 rest s3 hcur hne hdecl hrest
    rw [parseProgram]
    simp [bind_eq, isAtEndM_false hcur hne, hdecl, hrest, pure_eq, ite_app]

set_option maxHeartbeats 2000000 in
/-- Witness for C3: the faulty declaration `let 1 ;` records the error at the
number token and recovers to null via synchronization. -/
theorem claim3_panic_recovery_witness :
    declaration 29 { tokens := letFaultTokens, i := 0, errors := [] }
      = Res.map (fun _ => (none : Option Stmt))
          (synchronizeM 28
            { tokens := letFaultTokens, i := 1,
              errors := [⟨numTok 1, "Expected identifier after \x27let\x27."⟩] }) :=
  claim3_panic_recovery.1 28 { tokens := letFaultTokens, i := 0, errors := [] }
    (numTok 1) "Expected identifier after \x27let\x27."
    { tokens := letFaultTokens, i := 1, errors := [] } rfl

/-- C5: at a statement whose current token is an identifier, the parser takes
the assignment branch exactly when the token one past the identifier is one of
the five assignment-class operators (one token of lookahead, no backtracking):
a normal return from the branch decision is an Assign statement if and only if
the lookahead token is assignment-class, and otherwise it is an ExprStmt. -/
theorem claim5_assign_lookahead :
    (∀ (f : Nat) (s : PState) (t : Token) (st : Stmt) (s' : PState),
      s.tokens[s.i]? = some t → t.kind = .IDENT →
      exprOrAssignStmt (f + 1) s = .ok st s' →
      (((∃ name op value, st = Stmt.Assign name op value) ↔
          peekAssign s.tokens[s.i + 1]? = true) ∧
        (peekAssign s.tokens[s.i + 1]? = false → ∃ e, st = Stmt.ExprStmt e))) ∧
    (∀ k, assignClass k = true ↔
      (k = .ASSIGN ∨ k = .PLUS_ASSIGN ∨ k = .MINUS_ASSIGN ∨ k = .STAR_ASSIGN
        ∨ k = .SLASH_ASSIGN)) := by
  refine ⟨?_, fun k => by cases k <;> simp [assignClass]⟩
  intro f s t st s' h hk hok
  have hne : t.kind ≠ .EOF := by simp [hk]
  have hcheck : checkM .IDENT s = .ok true s := by
    rw [checkM_some h, hk]
    simp
  have hadv1 : advanceM s = .ok t { s with i := s.i + 1 } := advanceM_ne_eof h hne
  simp only [exprOrAssignStmt, bind_eq, hcheck, peekIsAssignOpM_eq, ite_app] at hok
  cases hb : peekAssign s.tokens[s.i + 1]? with
  | true =>
    rw [hb] at hok
    simp only [Bool.and_self, if_true, bind_eq, hadv1] at hok
    cases h2 : advanceM { s with i := s.i + 1 } with
    | ok t2 s2 =>
      simp only [h2] at hok
      cases h3 : assignOpFromTokenM t2 s2 with
      | ok op3 s3 =>
        simp only [h3] at hok
        cases h4 : expression f s3 with
        | ok v4 s4 =>
          simp only [h4] at hok
          cases h5 : consumeM .SEMICOLON "Expected \x27;\x27 after assignment." s4 with
          | ok t5 s5 =>
            simp only [h5] at hok
            simp only [pure_eq] at hok
            rcases hok with ⟨rfl, rfl⟩
            exact ⟨⟨fun _ => rfl, fun _ => ⟨t.lexeme, op3, v4, rfl⟩⟩,
              fun hfalse => absurd hfalse (by simp)⟩
          | err e5 s5 => simp [h5] at hok
          | fuelOut => simp [h5] at hok
        | err e4 s4 => simp [h4] at hok
        | fuelOut => simp [h4] at hok
      | err e3 s3 => simp [h3] at hok
      | fuelOut => simp [h3] at hok
    | err e2 s2 => simp [h2] at hok
    | fuelOut => simp [h2] at hok
  | false =>
    rw [hb] at hok
    simp only [Bool.and_false, if_false, bind_eq] at hok
    cases h4 : expression f s with
    | ok v4 s4 =>
      simp only [h4] at hok
      cases h5 : consumeM .SEMICOLON "Expected \x27;\x27 after expression." s4 with
      | ok t5 s5 =>
        simp only [h5] at hok
        simp only [pure_eq] at hok
        rcases hok with ⟨rfl, rfl⟩
        refine ⟨⟨fun hex => ?_, fun htrue => absurd htrue (by simp)⟩,
          fun _ => ⟨v4, rfl⟩⟩
        rcases hex with ⟨n, o, v, heq⟩
        cases heq
      | err e5 s5 => simp [h5] at hok
      | fuelOut => simp [h5] at hok
    | err e4 s4 => simp [h4] at hok
    | fuelOut => simp [h4] at hok

set_option maxHeartbeats 2000000 in
/-- Witness for C5: in `x += 1;` the lookahead token `+=` is assignment-class
and the parsed statement is an Assign node. -/
theorem claim5_assign_lookahead_witness :
    ∃ name op value,
      Stmt.Assign "x" AssignOp.PLUS_ASSIGN (Expr.num 1) = Stmt.Assign name op value := by
  have h := (claim5_assign_lookahead.1 19
    { tokens := lookaheadTokens, i := 0, errors := [] } (identTok "x")
    (Stmt.Assign "x" AssignOp.PLUS_ASSIGN (Expr.num 1))
    { tokens := lookaheadTokens, i := 4, errors := [] } rfl rfl rfl).1
  exact h.mpr rfl

/-- C9: the parser terminates on every finite token array. (1) Fuel
sufficiency: under the fuel-indexed embedding, on any token list the
top-level parse returns (normally or with a thrown error) whenever the fuel
is at least 16 times the token count plus 17, so no run of the source parser
loops forever, erroneous inputs included. (2) advance never moves the index
past the end-of-input sentinel that closes the token array. (3) synchronize
always makes strict progress when the current token is not the end-of-input
sentinel (and by claim 3 it stops only at a statement boundary or at
end-of-input). -/
theorem claim9_parser_termination :
    (∀ (tokens : List Token) (fuel : Nat),
        16 * tokens.length + 17 ≤ fuel → runParse fuel tokens ≠ Res.fuelOut) ∧
    (∀ (pre : List Token) (t u : Token) (s s' : PState),
        s.tokens = pre ++ [t] → t.kind = TokenKind.EOF → s.i ≤ pre.length →
        advanceM s = Res.ok u s' → s'.i ≤ pre.length) ∧
    (∀ (f : Nat) (s s' : PState) (t : Token),
        s.tokens[s.i]? = some t → t.kind ≠ TokenKind.EOF →
        synchronizeM f s = Res.ok () s' → s.i + 1 ≤ s'.i) := by
  refine ⟨?_, ?_, ?_⟩
  · intro tokens fuel hf
    obtain ⟨-, -, -, -, -, -, -, -, -, -, -, -, -, -, -, -, -, -, -, -, -, -,
      -, -, -, -, -, -, hPP⟩ := parserFuelSpec fuel
    exact (hPP { tokens := tokens, i := 0, errors := [] }).2.2
      (show 16 * (tokens.length - 0) + 17 ≤ fuel by omega)
  · intro pre t u s s' htoks hkind hle hadv
    have hlt : s.i < s.tokens.length := by
      rw [htoks, List.length_append, List.length_singleton]; omega
    have hv : s.tokens[s.i]? = some s.tokens[s.i] := List.getElem?_eq_getElem hlt
    by_cases he : (s.tokens[s.i]).kind = TokenKind.EOF
    · rw [advanceM_eof hv he] at hadv
      by_cases h0 : s.i = 0
      · rw [previousM_err_zero h0] at hadv
        cases hadv
      · cases hp : s.tokens[s.i - 1]? with
        | none =>
          rw [previousM_err_none h0 hp] at hadv
          cases hadv
        | some p =>
          rw [previousM_ok h0 hp] at hadv
          cases hadv
          exact hle
    · rw [advanceM_ne_eof hv he] at hadv
      cases hadv
      have hne : s.i ≠ pre.length := by
        intro h
        have ht : s.tokens[s.i]? = some t := by
          rw [htoks, h]
          exact List.getElem?_concat_length pre t
        have heq : t = s.tokens[s.i] := Option.some.inj (ht.symm.trans hv)
        exact he (heq ▸ hkind)
      show s.i + 1 ≤ pre.length
      omega
  · intro f s s' t hcur hne hsync
    simp only [synchronizeM, bind_eq] at hsync
    simp only [advanceM_ne_eof hcur hne] at hsync
    exact (syncLoop_post f _ _ hsync).2.2.1

/-- C9 witness: the fuel bound, the advance bound and the synchronize
progress law, each applied at a concrete input. -/
theorem claim9_parser_termination_witness :
    runParse 33 [eofTok] ≠ Res.fuelOut ∧
    ({ tokens := [numTok 1, eofTok], i := 1, errors := [] } : PState).i ≤
      [numTok 1].length ∧
    ({ tokens := [symTok TokenKind.SEMICOLON, eofTok], i := 0, errors := [] } : PState).i + 1 ≤
      ({ tokens := [symTok TokenKind.SEMICOLON, eofTok], i := 1, errors := [] } : PState).i :=
  ⟨claim9_parser_termination.1 [eofTok] 33 (by decide),
   claim9_parser_termination.2.1 [numTok 1] eofTok (numTok 1)
     { tokens := [numTok 1, eofTok], i := 0, errors := [] }
     { tokens := [numTok 1, eofTok], i := 1, errors := [] }
     rfl rfl (by decide) (by rfl),
   claim9_parser_termination.2.2 5
     { tokens := [symTok TokenKind.SEMICOLON, eofTok], i := 0, errors := [] }
     { tokens := [symTok TokenKind.SEMICOLON, eofTok], i := 1, errors := [] }
     (symTok TokenKind.SEMICOLON) rfl (by decide) (by rfl)⟩
